import Mathlib

/-!
Shallow embedding of the bidirectional tree container in
`6.14.Integrated/backup/gatorADDbk/gatorADD_bk/tree.h` (class `TreeTemplate`),
together with proofs about the operations.

Node ids are dense natural numbers (indices into the node store `nodes23`).
The per-node payload (`value`) is opaque to every operation treated here and is
omitted from the state.  Machine `unsigned int` values are modelled as `Nat`;
the sentinel `NONODE = UINT_MAX` is the literal 4294967295.  The unsigned
decrement of `edge_count` in `remove_edge` is modelled as truncated `Nat`
subtraction; on states satisfying the edge-count invariant the counter is
positive whenever it is decremented, so truncation never differs from the
source there.  Reads or writes of the node store at an index outside it are
undefined behaviour in the source; the embedding makes reads yield `[]` and
writes do nothing, and theorems about whole-program behaviour take in-bounds
arguments as hypotheses.
-/

namespace Gator

/-- Sentinel id for the absence of a node (`NONODE = UINT_MAX`). -/
def NONODE : Nat := 4294967295

/-- The tree state of `TreeTemplate`: the dense node store of adjacency lists
(`nodes23`, indexed by node id), the root id (`NONODE` when unrooted) and the
maintained edge counter. -/
structure TreeT where
  nodes23 : List (List Nat)
  root : Nat
  edge_count : Nat
deriving DecidableEq, Repr

/-- `clear()`: the empty tree; also the default-constructed state. -/
def clear : TreeT := ⟨[], NONODE, 0⟩

/-- `node_size()`: number of nodes in the store. -/
def node_size (t : TreeT) : Nat := t.nodes23.length

/-- `adjacent(v)`: the adjacency list of `v`. -/
def adjacent (t : TreeT) (v : Nat) : List Nat := t.nodes23.getD v []

/-- Internal helper: replace the adjacency list of `v` in the store. -/
def setAdj (t : TreeT) (v : Nat) (l : List Nat) : TreeT :=
  { t with nodes23 := t.nodes23.set v l }

/-- `degree(v)`: size of the adjacency list of `v`. -/
def degree (t : TreeT) (v : Nat) : Nat := (adjacent t v).length

/-- `is_leaf(v)`: degree at most one (an isolated node counts as a leaf). -/
def is_leaf (t : TreeT) (v : Nat) : Bool := decide (degree t v ≤ 1)

/-- `is_rooted()`. -/
def is_rooted (t : TreeT) : Bool := t.root != NONODE

/-- `is_unrooted()`. -/
def is_unrooted (t : TreeT) : Bool := t.root == NONODE

/-- `unroot()`. -/
def unroot (t : TreeT) : TreeT := { t with root := NONODE }

/-- Index of the first occurrence of `v` (the scan in `AdjacentList::remove`
and `AdjacentList::exist`). -/
def firstIdx : List Nat → Nat → Option Nat
  | [], _ => none
  | a :: l, v => if a = v then some 0 else (firstIdx l v).map (· + 1)

/-- `AdjacentList::remove(v)`: overwrite the first occurrence of `v` with the
last element and drop the last element (`data[i] = data[iEE-1]; resize`);
`none` when `v` is absent (the source returns `false`). -/
def swapRemove (l : List Nat) (v : Nat) : Option (List Nat) :=
  (firstIdx l v).map (fun i => (l.set i (l.getLastD 0)).dropLast)

/-- `new_node()`: append a fresh disconnected node; returns its id. -/
def new_node (t : TreeT) : TreeT × Nat :=
  ({ t with nodes23 := t.nodes23 ++ [[]] }, t.nodes23.length)

/-- `add_edge(v,u)`: append each endpoint to the other's adjacency list and
increment the edge counter — unconditional, no duplicate check. -/
def add_edge (t : TreeT) (v u : Nat) : TreeT :=
  let t1 := setAdj t v (adjacent t v ++ [u])
  let t2 := setAdj t1 u (adjacent t1 u ++ [v])
  { t2 with edge_count := t2.edge_count + 1 }

/-- `remove_edge(v,u)`: remove `u` from `v`'s list, then `v` from `u`'s list;
a failed first removal returns `false` with nothing changed, a failed second
removal returns `false` with the first removal left in place (exactly as the
source, which returns before decrementing the counter). -/
def remove_edge (t : TreeT) (v u : Nat) : TreeT × Bool :=
  match swapRemove (adjacent t v) u with
  | none => (t, false)
  | some av =>
    let t1 := setAdj t v av
    match swapRemove (adjacent t1 u) v with
    | none => (t1, false)
    | some au => ({ setAdj t1 u au with edge_count := t1.edge_count - 1 }, true)

/-- `children(v,parent,vec)`: all adjacent nodes of `v` other than `parent`
(also the value sequence of a `ChildrenList` whose parent occurs at most once
in the adjacency list). -/
def children_vector (t : TreeT) (v parent : Nat) : List Nat :=
  (adjacent t v).filter (fun u => u != parent)

/-- Total length of all adjacency lists; twice the edge count on invariant
states.  Used as a loop bound for the source's unbounded while loops. -/
def sumDeg (t : TreeT) : Nat := (t.nodes23.map List.length).sum

/-- The loop of `disconnect_node`: while `v` has a neighbor, remove the edge
to the first one.  Every iteration shortens `v`'s list, so `degree v` bounds
the number of iterations of the source loop. -/
def disconnect_node_loop : Nat → TreeT → Nat → TreeT
  | 0, t, _ => t
  | fuel+1, t, v =>
    match adjacent t v with
    | [] => t
    | u :: _ => disconnect_node_loop fuel (remove_edge t v u).1 v

/-- `disconnect_node(v)`: remove all edges incident to `v`. -/
def disconnect_node (t : TreeT) (v : Nat) : TreeT :=
  disconnect_node_loop (degree t v) t v

/-- The bitset computed by `is_connected()` / `components()`: bit `i` is set
when `i = 0` or some node `v` has a neighbor `j = i` with `j > v`. -/
def visitedBit (t : TreeT) (i : Nat) : Bool :=
  (i == 0) ||
    (List.range (node_size t)).any
      (fun v => (adjacent t v).any (fun j => j == i && decide (v < j)))

/-- `is_connected()`: every id is marked. -/
def is_connected (t : TreeT) : Bool :=
  (List.range (node_size t)).all (fun i => visitedBit t i)

/-- `components()`: one plus the number of unmarked ids. -/
def components (t : TreeT) : Nat :=
  1 + ((List.range (node_size t)).filter (fun i => !visitedBit t i)).length

/-- The reattachment loop of `contract_edge`: for each listed former neighbor
`i` of `u`, remove the edge `(i,u)` and add the edge `(i,v)`; the results of
`remove_edge` are ignored (the loop never aborts). -/
def contract_edge_loop : TreeT → Nat → Nat → List Nat → TreeT
  | t, _, _, [] => t
  | t, vi, ui, i :: rest =>
    contract_edge_loop (add_edge (remove_edge t i ui).1 i vi) vi ui rest

/-- `contract_edge(v,u)`: remove the edge `(v,u)` (result ignored), then
reattach every remaining neighbor of `u` to `v`; `u` ends disconnected. -/
def contract_edge (t : TreeT) (v u : Nat) : TreeT :=
  let t1 := (remove_edge t v u).1
  contract_edge_loop t1 v u (adjacent t1 u)

/-- `contract_chain_node(v)`: fails (state unchanged) unless `degree(v) = 2`
and `v` is not the root; otherwise removes both of `v`'s edges and joins its
two former neighbors `l[0], l[1]` directly. -/
def contract_chain_node (t : TreeT) (v : Nat) : TreeT × Bool :=
  if degree t v ≠ 2 then (t, false)
  else if v = t.root then (t, false)
  else
    match adjacent t v with
    | l0 :: l1 :: _ =>
      let t1 := (remove_edge t l0 v).1
      let t2 := (remove_edge t1 l1 v).1
      (add_edge t2 l0 l1, true)
    | _ => (t, false)

/-- The stack loop of `contract_chain`.  Each iteration pops `u`, pushes
`u`'s degree-2 neighbors (a `std::stack`: the list head is the top, so the
pushed neighbors appear reversed in front) and attempts to contract `u`; a
failed contraction stops the cascade, retaining the work already done.  The
source loop has no intrinsic bound on ill-formed states, so the walk is fuel
limited; `none` means the fuel ran out, and whenever the result is `some b`
the source loop terminates with result `b` in the same state. -/
def contract_chain_loop : Nat → TreeT → List Nat → TreeT × Option Bool
  | 0, t, _ => (t, none)
  | _+1, t, [] => (t, some true)
  | fuel+1, t, u :: stack =>
    let stack2 :=
      ((adjacent t u).filter (fun i => degree t i == 2)).reverse ++ stack
    match contract_chain_node t u with
    | (t1, false) => (t1, some false)
    | (t1, true) => contract_chain_loop fuel t1 stack2

/-- `contract_chain(v)`: run the cascade from `v`.  On reciprocal self-loop
free tree states every successful contraction removes an edge, so
`sumDeg + 1` bounds the iteration count of every terminating source run. -/
def contract_chain (t : TreeT) (v : Nat) : TreeT × Option Bool :=
  contract_chain_loop (sumDeg t + 1) t [v]

/-- The loop of `contract_all_chains` over a list of ids: attempt a chain
contraction at each id, aborting at the first failure (prior contractions are
retained; a failed `contract_chain_node` leaves the state unchanged). -/
def contract_all_chains_loop : TreeT → List Nat → TreeT × Bool
  | t, [] => (t, true)
  | t, i :: rest =>
    match contract_chain_node t i with
    | (t1, false) => (t1, false)
    | (t1, true) => contract_all_chains_loop t1 rest

/-- `contract_all_chains()`: ids `0..N-1` in order, `N` frozen at entry (no
operation in the loop changes the node count). -/
def contract_all_chains (t : TreeT) : TreeT × Bool :=
  contract_all_chains_loop t (List.range (node_size t))

/-- `trim_leaf(v)`: fails (state unchanged) unless `degree(v) = 1`; removes
the sole edge of `v`, then runs the chain cascade from the former neighbor
(the cascade's result is discarded) and returns `true`. -/
def trim_leaf (t : TreeT) (v : Nat) : TreeT × Bool :=
  if degree t v ≠ 1 then (t, false)
  else
    match adjacent t v with
    | p :: _ =>
      let t1 := (remove_edge t v p).1
      ((contract_chain t1 p).1, true)
    | [] => (t, false)

/-- `trim_leaves(leaves)`: trim each listed leaf in order, aborting at the
first failure with the prior trims retained. -/
def trim_leaves : TreeT → List Nat → TreeT × Bool
  | t, [] => (t, true)
  | t, v :: rest =>
    match trim_leaf t v with
    | (t1, false) => (t1, false)
    | (t1, true) => trim_leaves t1 rest

/-- The loop of `trim_root`: while the root has degree one, remove the edge
to its single child `c` (`remove_edge(c, root)`) and make `c` the root.  Each
iteration shortens the root's list, so `sumDeg + 1` bounds every terminating
source run. -/
def trim_root_loop : Nat → TreeT → TreeT
  | 0, t => t
  | fuel+1, t =>
    if degree t t.root = 1 then
      match adjacent t t.root with
      | c :: _ => trim_root_loop fuel { (remove_edge t c t.root).1 with root := c }
      | [] => t
    else t

/-- `trim_root()`: fails when unrooted or when the root's degree is not one;
otherwise slides the root down its degree-1 chain. -/
def trim_root (t : TreeT) : TreeT × Bool :=
  if !is_rooted t then (t, false)
  else if degree t t.root ≠ 1 then (t, false)
  else (trim_root_loop (sumDeg t + 1) t, true)

/-- `trim_leaves_rooted(leaves)`: `trim_leaves`, then unconditionally
`trim_root`; the returned status is that of the leaf-trimming alone. -/
def trim_leaves_rooted (t : TreeT) (leaves : List Nat) : TreeT × Bool :=
  let r := trim_leaves t leaves
  ((trim_root r.1).1, r.2)

/-- The pruning loop shared by the SPR family: remove the edge from `c` to
each listed neighbor, aborting with `false` at a failed removal. -/
def remove_edges_loop : TreeT → Nat → List Nat → TreeT × Bool
  | t, _, [] => (t, true)
  | t, c, i :: rest =>
    match remove_edge t c i with
    | (t1, false) => (t1, false)
    | (t1, true) => remove_edges_loop t1 c rest

/-- The grafting loop shared by the SPR family: add an edge from `n` to each
listed node. -/
def add_edges_loop : TreeT → Nat → List Nat → TreeT
  | t, _, [] => t
  | t, n, i :: rest => add_edges_loop (add_edge t n i) n rest

/-- The body of the prune step, abstracted over the snapshot `ch` of the
children vector (the source's local `std::vector ch`): remove the edge from
`center` to each listed neighbor, then if exactly two were listed join the
two directly (`add_edge(ch[0],ch[1])`), and if more than two were listed
create a fresh node joined to each of them. -/
def sprPruneCh (t : TreeT) (center : Nat) (ch : List Nat) : TreeT × Bool :=
  match remove_edges_loop t center ch with
  | (t1, false) => (t1, false)
  | (t1, true) =>
    if ch.length = 2 then
      (add_edge t1 (ch.getD 0 0) (ch.getD 1 0), true)
    else if ch.length > 2 then
      let r := new_node t1
      (add_edges_loop r.1 r.2 ch, true)
    else (t1, true)

/-- The prune step shared verbatim by `spr`, `reroot` and `spr_to_root`,
applied to `ch = children(center, excluded)`. -/
def sprPrune (t : TreeT) (center excluded : Nat) : TreeT × Bool :=
  sprPruneCh t center (children_vector t center excluded)

/-- `spr(n,pn,u,v)`: trivial success when `pn` is an endpoint of the target
edge; otherwise prune the subtree rooted at `n` together with `pn`
(`children(pn,n)`), then regraft by replacing the edge `(u,v)` with the path
`u - pn - v`. -/
def spr (t : TreeT) (n pn u v : Nat) : TreeT × Bool :=
  if pn = u then (t, true)
  else if pn = v then (t, true)
  else
    match sprPrune t pn n with
    | (t1, false) => (t1, false)
    | (t1, true) =>
      match remove_edge t1 u v with
      | (t2, false) => (t2, false)
      | (t2, true) => (add_edge (add_edge t2 pn u) pn v, true)

/-- `reroot(n,pn,u,v)`: trivial success when `n` is an endpoint of the target
edge; otherwise cut the rooting (`children(n,pn)`) and connect `n` into the
edge `(u,v)`. -/
def reroot (t : TreeT) (n pn u v : Nat) : TreeT × Bool :=
  if n = u then (t, true)
  else if n = v then (t, true)
  else
    match sprPrune t n pn with
    | (t1, false) => (t1, false)
    | (t1, true) =>
      match remove_edge t1 u v with
      | (t2, false) => (t2, false)
      | (t2, true) => (add_edge (add_edge t2 n u) n v, true)

/-- `spr_to_root(u,pu)`: fails on an unrooted tree and when `u` is the root;
trivial success when `pu` is the root; otherwise prune `pu` with the subtree
(`children(pu,u)`), connect `pu` to the old root and make `pu` the root. -/
def spr_to_root (t : TreeT) (u pu : Nat) : TreeT × Bool :=
  if !is_rooted t then (t, false)
  else if u = t.root then (t, false)
  else if pu = t.root then (t, true)
  else
    match sprPrune t pu u with
    | (t1, false) => (t1, false)
    | (t1, true) => ({ add_edge t1 pu t1.root with root := pu }, true)

/-- `spr_from_root(c,r,u,v)`: fails on an unrooted tree; trivial success when
the root is an endpoint of the target edge; otherwise remove the edges from
the root to its children other than `c` (no join or fresh node here), replace
the edge `(u,v)` by the path `u - root - v`, and make `r` the root. -/
def spr_from_root (t : TreeT) (c r u v : Nat) : TreeT × Bool :=
  if !is_rooted t then (t, false)
  else if t.root = u ∨ t.root = v then (t, true)
  else
    match remove_edges_loop t t.root (children_vector t t.root c) with
    | (t1, false) => (t1, false)
    | (t1, true) =>
      match remove_edge t1 u v with
      | (t2, false) => (t2, false)
      | (t2, true) =>
        ({ add_edge (add_edge t2 t1.root u) t1.root v with root := r }, true)

/-! ### The depth-first traversal engine (`Iterator_dfs`) -/

/-- The `traversal_states` enumeration of the source. -/
inductive Dir where
  | preorder
  | inorder
  | postorder
  | notraversal
deriving DecidableEq, Repr

/-- One frame of the traversal stack (`dfs_item`): the node id and the
children not yet finished (the iterator range `second .. third` of the
source; the head is the child currently being processed). -/
structure Frame where
  idx : Nat
  rest : List Nat
deriving DecidableEq, Repr

/-- The state of `Iterator_dfs`: the frame stack (top first) and the exposed
`idx` / `lvl` / `parent` / `direction` fields. -/
structure DfsState where
  stack : List Frame
  idx : Nat
  lvl : Nat
  parent : Nat
  direction : Dir
deriving DecidableEq, Repr

/-- The node ids on the frame stack, top first. -/
def stackIdxs (s : DfsState) : List Nat := s.stack.map Frame.idx

/-- `dfs_init(v,p)`: start the traversal at `v` with declared parent `p`
(`p` is filtered out of `v`'s children). -/
def dfs_init (t : TreeT) (v p : Nat) : DfsState :=
  ⟨[⟨v, children_vector t v p⟩], v, 0, p, Dir.preorder⟩

/-- `get_parent()`: the id one frame below the top, or `NONODE`. -/
def get_parent (stack : List Frame) : Nat :=
  match stack with
  | _ :: f :: _ => f.idx
  | _ => NONODE

/-- `dfs_next()`: one step of the traversal engine.  In the `PREORDER` and
`INORDER` states, an exhausted child range turns the direction (leaf case),
and otherwise the engine descends into the current child (the parent frame's
range is not advanced on descent).  In the `POSTORDER` state the top frame is
popped; if frames remain, the new top frame's child range is advanced and the
direction is `POSTORDER` when it is exhausted, `INORDER` otherwise. -/
def dfs_next (t : TreeT) (s : DfsState) : DfsState :=
  match s.stack with
  | [] => s
  | w :: below =>
    match s.direction with
    | Dir.preorder =>
      match w.rest with
      | [] => { s with direction := Dir.inorder }
      | c :: _ =>
        { stack := ⟨c, children_vector t c s.idx⟩ :: w :: below,
          idx := c, lvl := s.lvl + 1, parent := s.idx,
          direction := Dir.preorder }
    | Dir.inorder =>
      match w.rest with
      | [] => { s with direction := Dir.postorder }
      | c :: _ =>
        { stack := ⟨c, children_vector t c s.idx⟩ :: w :: below,
          idx := c, lvl := s.lvl + 1, parent := s.idx,
          direction := Dir.preorder }
    | Dir.postorder =>
      match below with
      | [] =>
        { stack := [], idx := NONODE, lvl := 0, parent := NONODE,
          direction := Dir.notraversal }
      | w2 :: below2 =>
        let stack2 : List Frame := ⟨w2.idx, w2.rest.tail⟩ :: below2
        { stack := stack2, idx := w2.idx, lvl := s.lvl - 1,
          parent := get_parent stack2,
          direction := if w2.rest.tail = [] then Dir.postorder
                       else Dir.inorder }
    | Dir.notraversal => s

/-- The states visited by `Iterator_dfs` from `s`, in order: the iterator
exposes each state until the frame stack empties (at which point `operator++`
sets `idx` to the end value and iteration stops).  `fuel` bounds the number
of steps taken; every theorem below is robust against truncation. -/
def dfs_states (t : TreeT) : Nat → DfsState → List DfsState
  | 0, _ => []
  | fuel+1, s =>
    if s.stack = [] then [] else s :: dfs_states t fuel (dfs_next t s)

/-- The event stream of the traversal: the `(direction, idx)` pair exposed at
each visited state (`PREORDER` = Enter, `INORDER` = Between, `POSTORDER` =
Leave). -/
def dfs_events (t : TreeT) (fuel : Nat) (s : DfsState) : List (Dir × Nat) :=
  (dfs_states t fuel s).map (fun s2 => (s2.direction, s2.idx))

/-- The guard of the `Iterator_dfs(idx_, ptr_)` constructor: `dfs_init()` is
run only when `idx_ ≠ node_size()`.  `begin_dfs()` constructs the iterator
with `idx_ = 0`, so on an empty tree (`node_size() = 0`) the guard fails and
`dfs_init()` is never entered. -/
def begin_dfs_runs_init (t : TreeT) : Bool := decide (0 ≠ node_size t)

/-- The node id with which the body of the no-argument `dfs_init()` calls
`children(idx, parent)` after the state fields are set: the root marker (or
node 0 when unrooted) on a nonempty tree; on an empty tree the `NOTRAVERSAL`
branch would leave `idx = UINT_MAX` and the call would still be executed
with that `idx` — but the constructor guard keeps that branch from ever
running. -/
def dfs_init_default_access (t : TreeT) : Nat :=
  let r := if t.root = NONODE then 0 else t.root
  if t.nodes23.isEmpty then NONODE else r

/-- The node-store indices read during the whole `begin_dfs()` construction:
the `children(idx, parent)` read happens only when the constructor guard
admits `dfs_init()`. -/
def begin_dfs_accesses (t : TreeT) : List Nat :=
  if begin_dfs_runs_init t then [dfs_init_default_access t] else []

/-- Every node-store access of the `begin_dfs()` construction is in
bounds. -/
def begin_dfs_safe (t : TreeT) : Prop :=
  ∀ i ∈ begin_dfs_accesses t, i < node_size t

instance (t : TreeT) : Decidable (begin_dfs_safe t) :=
  inferInstanceAs (Decidable (∀ i ∈ begin_dfs_accesses t, i < node_size t))

/-- The exposed `idx` field always mirrors the id of the top stack frame
(maintained by every branch of `dfs_next` and by `dfs_init`). -/
def TopAligned (s : DfsState) : Prop :=
  s.stack = [] ∨ ∃ w r, s.stack = w :: r ∧ s.idx = w.idx

/-- Position of the first occurrence of an event in the event stream (the
length of the list when the event does not occur). -/
def eventPos : List (Dir × Nat) → Dir × Nat → Nat
  | [], _ => 0
  | x :: xs, e => if x = e then 0 else eventPos xs e + 1

/-! ### The mutating interface as a datatype (for the reachable-state
invariant) -/

/-- One call of the mutating interface of `TreeTemplate`. -/
inductive Op where
  | op_new_node
  | op_add_edge (v u : Nat)
  | op_remove_edge (v u : Nat)
  | op_contract_edge (v u : Nat)
  | op_contract_chain_node (v : Nat)
  | op_contract_chain (v : Nat)
  | op_contract_all_chains
  | op_trim_leaf (v : Nat)
  | op_trim_leaves (l : List Nat)
  | op_trim_leaves_rooted (l : List Nat)
  | op_trim_root
  | op_spr_to_root (u pu : Nat)
  | op_spr_from_root (c r u v : Nat)
  | op_spr (n pn u v : Nat)
  | op_reroot (n pn u v : Nat)
  | op_disconnect_node (v : Nat)
  | op_clear
deriving DecidableEq, Repr

/-- Apply one mutating call to the state (return values are dropped). -/
def applyOp (t : TreeT) : Op → TreeT
  | Op.op_new_node => (new_node t).1
  | Op.op_add_edge v u => add_edge t v u
  | Op.op_remove_edge v u => (remove_edge t v u).1
  | Op.op_contract_edge v u => contract_edge t v u
  | Op.op_contract_chain_node v => (contract_chain_node t v).1
  | Op.op_contract_chain v => (contract_chain t v).1
  | Op.op_contract_all_chains => (contract_all_chains t).1
  | Op.op_trim_leaf v => (trim_leaf t v).1
  | Op.op_trim_leaves l => (trim_leaves t l).1
  | Op.op_trim_leaves_rooted l => (trim_leaves_rooted t l).1
  | Op.op_trim_root => (trim_root t).1
  | Op.op_spr_to_root u pu => (spr_to_root t u pu).1
  | Op.op_spr_from_root c r u v => (spr_from_root t c r u v).1
  | Op.op_spr n pn u v => (spr t n pn u v).1
  | Op.op_reroot n pn u v => (reroot t n pn u v).1
  | Op.op_disconnect_node v => disconnect_node t v
  | Op.op_clear => clear

/-- A call is valid when every node-id argument that the source indexes the
node store with (directly, or through `add_edge` on it, or by installing it
as the root id) refers to an existing node; calls violating this are
undefined behaviour in the source (`nodes23[v]` out of bounds). Arguments
used only in comparisons or as the excluded id of a children view are
unconstrained. -/
def validOp (t : TreeT) : Op → Bool
  | Op.op_new_node => true
  | Op.op_add_edge v u => decide (v < node_size t) && decide (u < node_size t)
  | Op.op_remove_edge v u =>
      decide (v < node_size t) && decide (u < node_size t)
  | Op.op_contract_edge v u =>
      decide (v < node_size t) && decide (u < node_size t)
  | Op.op_contract_chain_node v => decide (v < node_size t)
  | Op.op_contract_chain v => decide (v < node_size t)
  | Op.op_contract_all_chains => true
  | Op.op_trim_leaf v => decide (v < node_size t)
  | Op.op_trim_leaves l => l.all (fun v => decide (v < node_size t))
  | Op.op_trim_leaves_rooted l => l.all (fun v => decide (v < node_size t))
  | Op.op_trim_root => true
  | Op.op_spr_to_root _ pu => decide (pu < node_size t)
  | Op.op_spr_from_root _ r u v =>
      decide (r < node_size t) && decide (u < node_size t) &&
        decide (v < node_size t)
  | Op.op_spr _ pn u v =>
      decide (pn < node_size t) && decide (u < node_size t) &&
        decide (v < node_size t)
  | Op.op_reroot n _ u v =>
      decide (n < node_size t) && decide (u < node_size t) &&
        decide (v < node_size t)
  | Op.op_disconnect_node v => decide (v < node_size t)
  | Op.op_clear => true

/-- Apply a sequence of mutating calls. -/
def applyOps (t : TreeT) (ops : List Op) : TreeT := ops.foldl applyOp t

/-- Every call of the sequence is valid in the state it is applied to. -/
def validOps : TreeT → List Op → Bool
  | _, [] => true
  | t, op :: rest => validOp t op && validOps (applyOp t op) rest

/-- Fold a fallible elementary step over a list of arguments, keeping each
step's resulting state whether or not it succeeded. -/
def foldSteps (f : TreeT → Nat → TreeT × Bool) : TreeT → List Nat → TreeT
  | t, [] => t
  | t, v :: rest => foldSteps f (f t v).1 rest

/-- Every step of the sequence succeeds in the state it is applied to. -/
def stepsAllSucceed (f : TreeT → Nat → TreeT × Bool) :
    TreeT → List Nat → Bool
  | _, [] => true
  | t, v :: rest => (f t v).2 && stepsAllSucceed f (f t v).1 rest

/-! ### The state invariant and the edge primitives -/

/-- Occurrence count of `x` in the adjacency list of `w`. -/
def cnt (t : TreeT) (w x : Nat) : Nat := (adjacent t w).count x

/-- Multiset reciprocity: `u` occurs in `v`'s list as often as `v` in `u`'s
(spec invariant 1, strengthened to counts so that it is inductive). -/
def Recip (t : TreeT) : Prop := ∀ u v : Nat, cnt t v u = cnt t u v

/-- Every stored neighbor id refers to an existing node. -/
def Closed (t : TreeT) : Prop := ∀ v : Nat, ∀ u ∈ adjacent t v, u < node_size t

/-- Self-loop entries come in pairs (`add_edge(v,v)` inserts two). -/
def SelfEven (t : TreeT) : Prop := ∀ v : Nat, cnt t v v % 2 = 0

/-- The maintained edge counter doubles the total adjacency length
(spec invariant 2). -/
def EdgeCnt (t : TreeT) : Prop := 2 * t.edge_count = sumDeg t

/-- A defined root refers to an existing node (spec invariant 4). -/
def RootOk (t : TreeT) : Prop := t.root = NONODE ∨ t.root < node_size t

/-- The inductive invariant of reachable tree states. -/
def Inv (t : TreeT) : Prop :=
  Recip t ∧ Closed t ∧ SelfEven t ∧ EdgeCnt t ∧ RootOk t

/-! ### Lemmas about `firstIdx` and `swapRemove` -/

theorem firstIdx_eq_none {l : List Nat} {v : Nat} :
    firstIdx l v = none ↔ v ∉ l := by
  induction l with
  | nil => simp [firstIdx]
  | cons a l ih =>
    by_cases h : a = v
    · subst h; simp [firstIdx]
    · simp only [firstIdx, if_neg h, Option.map_eq_none', ih, List.mem_cons]
      constructor
      · rintro hl (hc | hc)
        · exact h hc.symm
        · exact hl hc
      · exact fun hc hm => hc (Or.inr hm)

theorem mem_of_firstIdx_eq_some {l : List Nat} {v i : Nat}
    (h : firstIdx l v = some i) : v ∈ l := by
  by_contra hv
  rw [firstIdx_eq_none.2 hv] at h
  exact Option.noConfusion h

theorem getLastD_congr {l : List Nat} (h : l ≠ []) (a b : Nat) :
    l.getLastD a = l.getLastD b := by
  cases l with
  | nil => exact (h rfl).elim
  | cons x l => rw [List.getLastD_cons, List.getLastD_cons]

theorem swapRemove_eq_none {l : List Nat} {v : Nat} :
    swapRemove l v = none ↔ v ∉ l := by
  unfold swapRemove
  rw [Option.map_eq_none']
  exact firstIdx_eq_none

theorem swapRemove_perm {l : List Nat} {v : Nat} :
    ∀ {l' : List Nat}, swapRemove l v = some l' → l'.Perm (l.erase v) := by
  induction l with
  | nil => intro l' h; simp [swapRemove, firstIdx] at h
  | cons a l ih =>
    intro l' h
    by_cases hav : a = v
    · subst hav
      have hl' : l' = (l.getLastD a :: l).dropLast := by
        have h0 : swapRemove (a :: l) a
            = some (((a :: l).set 0 ((a :: l).getLastD 0)).dropLast) := by
          simp [swapRemove, firstIdx]
        rw [h0, Option.some.injEq] at h
        rw [← h, List.getLastD_cons]
        rfl
      rw [List.erase_cons_head, hl']
      cases l with
      | nil => simp
      | cons b l2 =>
        have hne : (b :: l2) ≠ [] := by simp
        have hg : (b :: l2).getLastD a = (b :: l2).getLast hne := by
          rw [List.getLastD_eq_getLast?, List.getLast?_eq_getLast _ hne]
          rfl
        have hp1 : ((b :: l2).getLastD a :: (b :: l2).dropLast).Perm
            ((b :: l2).dropLast ++ [(b :: l2).getLastD a]) :=
          (List.perm_append_singleton _ _).symm
        have hp2 : (b :: l2).dropLast ++ [(b :: l2).getLastD a] = b :: l2 := by
          rw [hg]; exact List.dropLast_append_getLast hne
        rw [List.dropLast_cons_of_ne_nil hne]
        exact hp1.trans (by rw [hp2])
    · have hmain : swapRemove (a :: l) v
          = (firstIdx l v).map
              (fun j => ((a :: l).set (j+1) ((a :: l).getLastD 0)).dropLast) := by
        unfold swapRemove
        simp only [firstIdx, if_neg hav]
        cases firstIdx l v <;> rfl
      rw [hmain] at h
      cases hfi : firstIdx l v with
      | none => rw [hfi] at h; exact Option.noConfusion h
      | some j =>
        rw [hfi, Option.map_some', Option.some.injEq] at h
        have hv : v ∈ l := mem_of_firstIdx_eq_some hfi
        have hlne : l ≠ [] := List.ne_nil_of_mem hv
        have hgl : (a :: l).getLastD 0 = l.getLastD 0 := by
          rw [List.getLastD_cons]; exact getLastD_congr hlne a 0
        have hset : (a :: l).set (j + 1) ((a :: l).getLastD 0)
            = a :: l.set j (l.getLastD 0) := by
          rw [hgl]; rfl
        rw [hset] at h
        have hsetne : l.set j (l.getLastD 0) ≠ [] := by
          intro hc
          have hlen := congrArg List.length hc
          simp only [List.length_set, List.length_nil] at hlen
          exact hlne (List.length_eq_zero.1 hlen)
        rw [List.dropLast_cons_of_ne_nil hsetne] at h
        have hinner : swapRemove l v
            = some ((l.set j (l.getLastD 0)).dropLast) := by
          simp [swapRemove, hfi]
        have hperm := ih hinner
        have herase : (a :: l).erase v = a :: l.erase v := by
          rw [List.erase_cons]
          simp [hav]
        rw [herase, ← h]
        exact hperm.cons a

theorem swapRemove_count {l l' : List Nat} {v : Nat}
    (h : swapRemove l v = some l') (x : Nat) :
    l'.count x = (l.erase v).count x :=
  (swapRemove_perm h).count_eq x

theorem swapRemove_mem {l : List Nat} {v : Nat}
    (h : ∃ l', swapRemove l v = some l') : v ∈ l := by
  rcases h with ⟨l', h⟩
  by_contra hv
  rw [swapRemove_eq_none.2 hv] at h
  exact Option.noConfusion h

theorem swapRemove_length {l l' : List Nat} {v : Nat}
    (h : swapRemove l v = some l') : l'.length + 1 = l.length := by
  have hv : v ∈ l := swapRemove_mem ⟨l', h⟩
  have := (swapRemove_perm h).length_eq
  rw [this, List.length_erase_of_mem hv]
  exact Nat.succ_pred_eq_of_pos (List.length_pos_of_mem hv)

/-! ### Lemmas about `setAdj`, `adjacent` and `sumDeg` -/

@[simp] theorem node_size_setAdj (t : TreeT) (v : Nat) (l : List Nat) :
    node_size (setAdj t v l) = node_size t := by
  simp [node_size, setAdj]

@[simp] theorem root_setAdj (t : TreeT) (v : Nat) (l : List Nat) :
    (setAdj t v l).root = t.root := rfl

@[simp] theorem edge_count_setAdj (t : TreeT) (v : Nat) (l : List Nat) :
    (setAdj t v l).edge_count = t.edge_count := rfl

theorem adjacent_of_le {t : TreeT} {v : Nat} (h : node_size t ≤ v) :
    adjacent t v = [] :=
  List.getD_eq_default _ _ h

theorem adjacent_setAdj_self {t : TreeT} {v : Nat} (h : v < node_size t)
    (l : List Nat) : adjacent (setAdj t v l) v = l := by
  simp only [adjacent, setAdj]
  rw [List.getD_eq_getElem?_getD, List.getElem?_set_self]
  · rfl
  · exact h

theorem adjacent_setAdj_ne {t : TreeT} {v w : Nat} (h : w ≠ v)
    (l : List Nat) : adjacent (setAdj t v l) w = adjacent t w := by
  simp only [adjacent, setAdj]
  rw [List.getD_eq_getElem?_getD, List.getElem?_set_ne (fun hc => h hc.symm),
    List.getD_eq_getElem?_getD]

theorem sum_set_nat (ns : List Nat) (i x : Nat) (h : i < ns.length) :
    (ns.set i x).sum + ns.getD i 0 = ns.sum + x := by
  induction ns generalizing i with
  | nil => simp at h
  | cons a ns ih =>
    cases i with
    | zero => simp [List.set]; omega
    | succ j =>
      have hj : j < ns.length := by simpa using h
      have := ih j hj
      simp only [List.set, List.sum_cons, List.getD_cons_succ]
      omega

theorem sumDeg_setAdj {t : TreeT} {v : Nat} (h : v < node_size t)
    (l : List Nat) :
    sumDeg (setAdj t v l) + degree t v = sumDeg t + l.length := by
  have hmap : (t.nodes23.set v l).map List.length
      = (t.nodes23.map List.length).set v l.length := List.map_set
  have hget : (t.nodes23.map List.length).getD v 0 = degree t v := by
    rw [List.getD_eq_getElem?_getD, List.getElem?_map]
    have hv : v < t.nodes23.length := h
    rw [List.getElem?_eq_getElem hv]
    simp [degree, adjacent, List.getD_eq_getElem?_getD,
      List.getElem?_eq_getElem hv]
  have := sum_set_nat (t.nodes23.map List.length) v l.length
    (by simpa [node_size] using h)
  rw [hget] at this
  simpa [sumDeg, setAdj, hmap] using this

theorem mem_iff_cnt_pos {t : TreeT} {w x : Nat} :
    x ∈ adjacent t w ↔ 0 < cnt t w x := by
  unfold cnt
  exact List.count_pos_iff.symm

theorem adjacent_nonempty_lt {t : TreeT} {v : Nat}
    (h : adjacent t v ≠ []) : v < node_size t := by
  by_contra hc
  exact h (adjacent_of_le (Nat.le_of_not_lt hc))

theorem mem_lt_of_mem_adjacent {t : TreeT} {v u : Nat}
    (h : u ∈ adjacent t v) : v < node_size t :=
  adjacent_nonempty_lt (List.ne_nil_of_mem h)

theorem count_erase_self_succ {l : List Nat} {a : Nat} (h : a ∈ l) :
    (l.erase a).count a + 1 = l.count a := by
  rw [List.count_erase_self]
  have := List.count_pos_iff.2 h
  omega

theorem count_erase_of_ne_nat {l : List Nat} {a b : Nat} (h : a ≠ b) :
    (l.erase a).count b = l.count b :=
  List.count_erase_of_ne (Ne.symm h) _

theorem count_concat_nat (l : List Nat) (y x : Nat) :
    (l ++ [y]).count x = l.count x + (if y = x then 1 else 0) := by
  rw [List.count_append]
  by_cases h : y = x
  · subst h; simp
  · simp [List.count_cons, h]

theorem swapRemove_exists_of_mem {l : List Nat} {v : Nat} (h : v ∈ l) :
    ∃ l', swapRemove l v = some l' := by
  cases hs : swapRemove l v with
  | none => exact (swapRemove_eq_none.1 hs h).elim
  | some l' => exact ⟨l', rfl⟩

/-! #### `add_edge` characterization -/

@[simp] theorem node_size_add_edge (t : TreeT) (v u : Nat) :
    node_size (add_edge t v u) = node_size t := by
  simp [add_edge, node_size, setAdj]

@[simp] theorem root_add_edge (t : TreeT) (v u : Nat) :
    (add_edge t v u).root = t.root := rfl

@[simp] theorem edge_count_add_edge (t : TreeT) (v u : Nat) :
    (add_edge t v u).edge_count = t.edge_count + 1 := rfl

theorem adjacent_add_edge_of_ne {t : TreeT} {v u w : Nat}
    (hw1 : w ≠ v) (hw2 : w ≠ u) :
    adjacent (add_edge t v u) w = adjacent t w := by
  have h1 : adjacent (add_edge t v u) w
      = adjacent (setAdj (setAdj t v (adjacent t v ++ [u])) u
          (adjacent (setAdj t v (adjacent t v ++ [u])) u ++ [v])) w := rfl
  rw [h1, adjacent_setAdj_ne hw2, adjacent_setAdj_ne hw1]

theorem adjacent_add_edge_fst {t : TreeT} {v u : Nat}
    (hvu : v ≠ u) (hv : v < node_size t) :
    adjacent (add_edge t v u) v = adjacent t v ++ [u] := by
  have h1 : adjacent (add_edge t v u) v
      = adjacent (setAdj (setAdj t v (adjacent t v ++ [u])) u
          (adjacent (setAdj t v (adjacent t v ++ [u])) u ++ [v])) v := rfl
  rw [h1, adjacent_setAdj_ne hvu, adjacent_setAdj_self hv]

theorem adjacent_add_edge_snd {t : TreeT} {v u : Nat}
    (hvu : v ≠ u) (hu : u < node_size t) :
    adjacent (add_edge t v u) u = adjacent t u ++ [v] := by
  have h1 : adjacent (add_edge t v u) u
      = adjacent (setAdj (setAdj t v (adjacent t v ++ [u])) u
          (adjacent (setAdj t v (adjacent t v ++ [u])) u ++ [v])) u := rfl
  rw [h1, adjacent_setAdj_self (by simpa using hu),
    adjacent_setAdj_ne (fun hc => hvu hc.symm)]

theorem adjacent_add_edge_diag {t : TreeT} {v : Nat} (hv : v < node_size t) :
    adjacent (add_edge t v v) v = adjacent t v ++ [v, v] := by
  have h1 : adjacent (add_edge t v v) v
      = adjacent (setAdj (setAdj t v (adjacent t v ++ [v])) v
          (adjacent (setAdj t v (adjacent t v ++ [v])) v ++ [v])) v := rfl
  rw [h1, adjacent_setAdj_self (by simpa using hv), adjacent_setAdj_self hv,
    List.append_assoc]
  rfl

theorem cnt_add_edge {t : TreeT} {v u : Nat}
    (hv : v < node_size t) (hu : u < node_size t) (w x : Nat) :
    cnt (add_edge t v u) w x
      = cnt t w x + ((if w = v ∧ x = u then 1 else 0)
          + (if w = u ∧ x = v then 1 else 0)) := by
  unfold cnt
  by_cases hvu : v = u
  · subst hvu
    by_cases hw : w = v
    · subst hw
      rw [adjacent_add_edge_diag hv]
      have h2 : adjacent t w ++ [w, w] = (adjacent t w ++ [w]) ++ [w] := by
        simp
      rw [h2, count_concat_nat, count_concat_nat]
      by_cases hx : x = w
      · simp [hx]
      · simp [hx, Ne.symm hx]
    · rw [adjacent_add_edge_of_ne hw hw]
      simp [hw]
  · by_cases hw1 : w = v
    · subst hw1
      rw [adjacent_add_edge_fst hvu hv, count_concat_nat]
      by_cases hx : x = u
      · simp [hx, hvu]
      · simp [hx, Ne.symm hx, hvu]
    · by_cases hw2 : w = u
      · subst hw2
        rw [adjacent_add_edge_snd hvu hu, count_concat_nat]
        by_cases hx : x = v
        · simp [hx, Ne.symm hvu]
        · simp [hx, Ne.symm hx, Ne.symm hvu]
      · rw [adjacent_add_edge_of_ne hw1 hw2]
        simp [hw1, hw2]

theorem sumDeg_add_edge {t : TreeT} {v u : Nat}
    (hv : v < node_size t) (hu : u < node_size t) :
    sumDeg (add_edge t v u) = sumDeg t + 2 := by
  have h1 : add_edge t v u
      = { setAdj (setAdj t v (adjacent t v ++ [u])) u
            (adjacent (setAdj t v (adjacent t v ++ [u])) u ++ [v]) with
          edge_count :=
            (setAdj (setAdj t v (adjacent t v ++ [u])) u
              (adjacent (setAdj t v (adjacent t v ++ [u])) u ++ [v])).edge_count
              + 1 } := rfl
  have hs : sumDeg (add_edge t v u)
      = sumDeg (setAdj (setAdj t v (adjacent t v ++ [u])) u
          (adjacent (setAdj t v (adjacent t v ++ [u])) u ++ [v])) := by
    rw [h1]; rfl
  set t1 := setAdj t v (adjacent t v ++ [u]) with ht1
  have hst1 : sumDeg t1 + degree t v = sumDeg t + (degree t v + 1) := by
    have := sumDeg_setAdj hv (adjacent t v ++ [u])
    simpa [degree] using this
  have hut1 : u < node_size t1 := by simpa [ht1] using hu
  have hst2 : sumDeg (setAdj t1 u (adjacent t1 u ++ [v])) + degree t1 u
      = sumDeg t1 + (degree t1 u + 1) := by
    have := sumDeg_setAdj hut1 (adjacent t1 u ++ [v])
    simpa [degree] using this
  rw [hs]
  omega

/-! #### `remove_edge` characterization -/

theorem recip_mem {t : TreeT} (hrec : Recip t) {u v : Nat}
    (h : u ∈ adjacent t v) : v ∈ adjacent t u :=
  mem_iff_cnt_pos.2 (hrec u v ▸ mem_iff_cnt_pos.1 h)

theorem count_erase_formula {l : List Nat} {a : Nat} (h : a ∈ l) (x : Nat) :
    (l.erase a).count x + (if x = a then 1 else 0) = l.count x := by
  by_cases hx : x = a
  · subst hx
    simpa using count_erase_self_succ h
  · simp [hx, count_erase_of_ne_nat (Ne.symm hx)]

theorem remove_edge_fail_of_not_mem {t : TreeT} {v u : Nat}
    (h : u ∉ adjacent t v) : remove_edge t v u = (t, false) := by
  unfold remove_edge
  rw [swapRemove_eq_none.2 h]

theorem remove_edge_succ_spec {t : TreeT} {v u : Nat} (hrec : Recip t)
    (hse : SelfEven t) (hmem : u ∈ adjacent t v) :
    (remove_edge t v u).2 = true
    ∧ (∀ w x, cnt (remove_edge t v u).1 w x
         + ((if w = v ∧ x = u then 1 else 0) + (if w = u ∧ x = v then 1 else 0))
         = cnt t w x)
    ∧ node_size (remove_edge t v u).1 = node_size t
    ∧ (remove_edge t v u).1.root = t.root
    ∧ (remove_edge t v u).1.edge_count = t.edge_count - 1
    ∧ sumDeg (remove_edge t v u).1 + 2 = sumDeg t := by
  have hv : v < node_size t := mem_lt_of_mem_adjacent hmem
  have hu : u < node_size t := mem_lt_of_mem_adjacent (recip_mem hrec hmem)
  obtain ⟨av, hav⟩ := swapRemove_exists_of_mem hmem
  have hB : ∀ x, av.count x + (if x = u then 1 else 0)
      = (adjacent t v).count x := fun x => by
    rw [(swapRemove_perm hav).count_eq]
    exact count_erase_formula hmem x
  have hBlen : av.length + 1 = degree t v := swapRemove_length hav
  have hv1 : v < node_size (setAdj t v av) := by simpa using hv
  have hu1 : u < node_size (setAdj t v av) := by simpa using hu
  have hadj1 : ∀ w, adjacent (setAdj t v av) w
      = if w = v then av else adjacent t w := by
    intro w
    by_cases hw : w = v
    · subst hw; rw [adjacent_setAdj_self hv, if_pos rfl]
    · rw [adjacent_setAdj_ne hw, if_neg hw]
  have hmem2 : v ∈ adjacent (setAdj t v av) u := by
    rw [hadj1 u]
    by_cases hvu : v = u
    · rw [if_pos hvu.symm]
      have h1 := hB v
      have h2 : (adjacent t v).count v % 2 = 0 := hse v
      have h3 : 0 < (adjacent t v).count u := List.count_pos_iff.2 hmem
      rw [← hvu] at h3
      rw [← List.count_pos_iff]
      rw [if_pos hvu] at h1
      omega
    · rw [if_neg (fun hc : u = v => hvu hc.symm)]
      exact recip_mem hrec hmem
  obtain ⟨au, hau⟩ := swapRemove_exists_of_mem hmem2
  have hA : ∀ x, au.count x + (if x = v then 1 else 0)
      = (adjacent (setAdj t v av) u).count x := fun x => by
    rw [(swapRemove_perm hau).count_eq]
    exact count_erase_formula hmem2 x
  have hAlen : au.length + 1 = degree (setAdj t v av) u := swapRemove_length hau
  have hres : remove_edge t v u
      = ({ setAdj (setAdj t v av) u au with
            edge_count := (setAdj t v av).edge_count - 1 }, true) := by
    unfold remove_edge
    rw [hav]
    dsimp only
    rw [hau]
  have hadjF : ∀ w, adjacent (remove_edge t v u).1 w
      = if w = u then au else if w = v then av else adjacent t w := by
    intro w
    rw [hres]
    by_cases hw : w = u
    · rw [if_pos hw, hw]
      show adjacent (setAdj (setAdj t v av) u au) u = au
      rw [adjacent_setAdj_self hu1]
    · rw [if_neg hw]
      show adjacent (setAdj (setAdj t v av) u au) w = _
      rw [adjacent_setAdj_ne hw, hadj1 w]
  refine ⟨by rw [hres], ?_, ?_, ?_, ?_, ?_⟩
  · intro w x
    unfold cnt
    rw [hadjF w]
    have h1 := hA x
    have h2 := hB x
    rw [hadj1 u] at h1
    by_cases hw1 : w = u
    · rw [if_pos hw1, hw1]
      by_cases hvu : u = v
      · rw [if_pos hvu] at h1
        rw [hvu] at h2 ⊢
        by_cases hx : x = v
        · rw [if_pos hx] at h1 h2
          rw [if_pos (And.intro rfl hx)]
          omega
        · rw [if_neg hx] at h1 h2
          rw [if_neg (fun hc : v = v ∧ x = v => hx hc.2)]
          omega
      · rw [if_neg hvu] at h1
        rw [if_neg (fun hc : u = v ∧ x = u => hvu hc.1)]
        by_cases hx : x = v
        · rw [if_pos hx] at h1
          rw [if_pos (And.intro rfl hx)]
          omega
        · rw [if_neg hx] at h1
          rw [if_neg (fun hc : u = u ∧ x = v => hx hc.2)]
          omega
    · rw [if_neg hw1]
      by_cases hw2 : w = v
      · rw [if_pos hw2, hw2]
        have hvnu : ¬v = u := fun hc => hw1 (hw2.trans hc)
        rw [if_neg (fun hc : v = u ∧ x = v => hvnu hc.1)]
        by_cases hx : x = u
        · rw [if_pos hx] at h2
          rw [if_pos (And.intro rfl hx)]
          omega
        · rw [if_neg hx] at h2
          rw [if_neg (fun hc : v = v ∧ x = u => hx hc.2)]
          omega
      · rw [if_neg hw2]
        rw [if_neg (fun hc : w = v ∧ x = u => hw2 hc.1),
          if_neg (fun hc : w = u ∧ x = v => hw1 hc.1)]
        omega
  · rw [hres]
    show node_size (setAdj (setAdj t v av) u au) = node_size t
    simp
  · rw [hres]
    rfl
  · rw [hres]
    rfl
  · rw [hres]
    have s1 : sumDeg (setAdj t v av) + degree t v = sumDeg t + av.length := by
      have := sumDeg_setAdj hv av
      omega
    have s2 : sumDeg (setAdj (setAdj t v av) u au)
        + degree (setAdj t v av) u = sumDeg (setAdj t v av) + au.length := by
      have := sumDeg_setAdj hu1 au
      omega
    show sumDeg (setAdj (setAdj t v av) u au) + 2 = sumDeg t
    omega

/-! #### Invariant preservation for the primitives -/

theorem delta_symm (v u a b : Nat) :
    ((if b = v ∧ a = u then 1 else 0) + (if b = u ∧ a = v then 1 else 0) : Nat)
    = ((if a = v ∧ b = u then 1 else 0)
        + (if a = u ∧ b = v then 1 else 0)) := by
  have e1 : (b = v ∧ a = u) ↔ (a = u ∧ b = v) := And.comm
  have e2 : (b = u ∧ a = v) ↔ (a = v ∧ b = u) := And.comm
  rw [if_congr e1 rfl rfl, if_congr e2 rfl rfl, Nat.add_comm]

theorem Inv_add_edge {t : TreeT} {v u : Nat} (h : Inv t)
    (hv : v < node_size t) (hu : u < node_size t) : Inv (add_edge t v u) := by
  obtain ⟨hrec, hcl, hse, hec, hro⟩ := h
  refine ⟨?_, ?_, ?_, ?_, ?_⟩
  · intro a b
    rw [cnt_add_edge hv hu, cnt_add_edge hv hu, hrec a b, delta_symm]
  · intro a b hb
    have hpos : 0 < cnt (add_edge t v u) a b := mem_iff_cnt_pos.1 hb
    rw [cnt_add_edge hv hu] at hpos
    rw [node_size_add_edge]
    by_cases hbu : b = u
    · rw [hbu]; exact hu
    · by_cases hbv : b = v
      · rw [hbv]; exact hv
      · rw [if_neg (fun hc : a = v ∧ b = u => hbu hc.2),
          if_neg (fun hc : a = u ∧ b = v => hbv hc.2)] at hpos
        exact hcl a b (mem_iff_cnt_pos.2 (by omega))
  · intro a
    have hp := hse a
    rw [cnt_add_edge hv hu]
    by_cases hc : a = v ∧ a = u
    · rw [if_pos hc, if_pos (And.intro hc.2 hc.1)]; omega
    · rw [if_neg hc, if_neg (fun h2 => hc (And.intro h2.2 h2.1))]; omega
  · show 2 * (add_edge t v u).edge_count = sumDeg (add_edge t v u)
    rw [edge_count_add_edge, sumDeg_add_edge hv hu]
    have hec2 : 2 * t.edge_count = sumDeg t := hec
    omega
  · show (add_edge t v u).root = NONODE ∨ (add_edge t v u).root < _
    rw [root_add_edge, node_size_add_edge]
    exact hro

theorem Inv_remove_edge {t : TreeT} (v u : Nat) (h : Inv t) :
    Inv (remove_edge t v u).1 := by
  obtain ⟨hrec, hcl, hse, hec, hro⟩ := h
  by_cases hmem : u ∈ adjacent t v
  · obtain ⟨-, hcnt, hsize, hroot, hecnt, hsum⟩ :=
      remove_edge_succ_spec hrec hse hmem
    refine ⟨?_, ?_, ?_, ?_, ?_⟩
    · intro a b
      have h1 := hcnt b a
      have h2 := hcnt a b
      have h3 := hrec a b
      have hd := delta_symm v u a b
      omega
    · intro a b hb
      have h2 := hcnt a b
      have hpos : 0 < cnt (remove_edge t v u).1 a b := mem_iff_cnt_pos.1 hb
      rw [hsize]
      exact hcl a b (mem_iff_cnt_pos.2 (by omega))
    · intro a
      have h1 := hcnt a a
      have hp := hse a
      by_cases hc : a = v ∧ a = u
      · rw [if_pos hc, if_pos (And.intro hc.2 hc.1)] at h1; omega
      · rw [if_neg hc, if_neg (fun h2 => hc (And.intro h2.2 h2.1))] at h1
        omega
    · show 2 * (remove_edge t v u).1.edge_count = sumDeg (remove_edge t v u).1
      rw [hecnt]
      have hec2 : 2 * t.edge_count = sumDeg t := hec
      omega
    · show (remove_edge t v u).1.root = NONODE ∨ _
      rw [hroot, hsize]
      exact hro
  · rw [remove_edge_fail_of_not_mem hmem]
    exact ⟨hrec, hcl, hse, hec, hro⟩

theorem remove_edge_fail_eq {t : TreeT} {v u : Nat} (hrec : Recip t)
    (hse : SelfEven t) (hf : (remove_edge t v u).2 = false) :
    (remove_edge t v u).1 = t := by
  by_cases hmem : u ∈ adjacent t v
  · have := (remove_edge_succ_spec hrec hse hmem).1
    rw [this] at hf
    exact Bool.noConfusion hf
  · rw [remove_edge_fail_of_not_mem hmem]

theorem Inv_clear : Inv clear := by
  have hadj : ∀ w, adjacent clear w = [] := by
    intro w
    rfl
  refine ⟨?_, ?_, ?_, ?_, ?_⟩
  · intro a b; simp [cnt, hadj]
  · intro a b hb; rw [hadj] at hb; exact absurd hb (List.not_mem_nil b)
  · intro a; simp [cnt, hadj]
  · rfl
  · exact Or.inl rfl

theorem adjacent_new_node (t : TreeT) (w : Nat) :
    adjacent (new_node t).1 w = adjacent t w := by
  show (t.nodes23 ++ [[]]).getD w [] = t.nodes23.getD w []
  rcases Nat.lt_or_ge w t.nodes23.length with hw | hw
  · rw [List.getD_eq_getElem?_getD, List.getElem?_append, if_pos hw,
      ← List.getD_eq_getElem?_getD]
  · have h1 : t.nodes23.getD w [] = [] := List.getD_eq_default _ _ hw
    have h2 : (t.nodes23 ++ [[]]).getD w [] = [] := by
      rw [List.getD_eq_getElem?_getD, List.getElem?_append,
        if_neg (by omega)]
      cases hd : w - t.nodes23.length with
      | zero => rfl
      | succ k => rfl
    rw [h1, h2]

@[simp] theorem node_size_new_node (t : TreeT) :
    node_size (new_node t).1 = node_size t + 1 := by
  simp [new_node, node_size]

theorem Inv_new_node {t : TreeT} (h : Inv t) : Inv (new_node t).1 := by
  obtain ⟨hrec, hcl, hse, hec, hro⟩ := h
  refine ⟨?_, ?_, ?_, ?_, ?_⟩
  · intro a b; simp [cnt, adjacent_new_node]; exact hrec a b
  · intro a b hb
    rw [adjacent_new_node] at hb
    rw [node_size_new_node]
    exact Nat.lt_succ_of_lt (hcl a b hb)
  · intro a; simp [cnt, adjacent_new_node]; exact hse a
  · show 2 * t.edge_count = sumDeg (new_node t).1
    have : sumDeg (new_node t).1 = sumDeg t := by
      simp [sumDeg, new_node]
    rw [this]
    exact hec
  · rcases hro with hro | hro
    · exact Or.inl hro
    · exact Or.inr (by rw [node_size_new_node]; exact Nat.lt_succ_of_lt hro)

theorem Inv_set_root {t : TreeT} {r : Nat} (h : Inv t)
    (hr : r = NONODE ∨ r < node_size t) : Inv { t with root := r } := by
  obtain ⟨hrec, hcl, hse, hec, hro⟩ := h
  exact ⟨hrec, hcl, hse, hec, hr⟩

/-! #### Invariant preservation for the composite operations -/

theorem node_size_remove_edge (t : TreeT) (v u : Nat) :
    node_size (remove_edge t v u).1 = node_size t := by
  unfold remove_edge
  cases swapRemove (adjacent t v) u with
  | none => rfl
  | some av =>
    dsimp only
    cases swapRemove (adjacent (setAdj t v av) u) v with
    | none => simp
    | some au =>
      show node_size (setAdj (setAdj t v av) u au) = node_size t
      simp

theorem root_remove_edge (t : TreeT) (v u : Nat) :
    (remove_edge t v u).1.root = t.root := by
  unfold remove_edge
  cases swapRemove (adjacent t v) u with
  | none => rfl
  | some av =>
    dsimp only
    cases swapRemove (adjacent (setAdj t v av) u) v with
    | none => simp
    | some au =>
      show (setAdj (setAdj t v av) u au).root = t.root
      simp

theorem getD_mem_of_lt {l : List Nat} {i : Nat} (h : i < l.length) (d : Nat) :
    l.getD i d ∈ l := by
  rw [List.getD_eq_getElem?_getD, List.getElem?_eq_getElem h]
  exact List.getElem_mem h

theorem Inv_contract_edge_loop :
    ∀ (l : List Nat) (t : TreeT) (vi ui : Nat), Inv t →
      (∀ i ∈ l, i < node_size t) → vi < node_size t →
      Inv (contract_edge_loop t vi ui l) := by
  intro l
  induction l with
  | nil => intro t vi ui h _ _; exact h
  | cons i rest ih =>
    intro t vi ui h hl hvi
    unfold contract_edge_loop
    have hi : i < node_size t := hl i (List.mem_cons_self _ _)
    have h1 : Inv (remove_edge t i ui).1 := Inv_remove_edge i ui h
    have hsz : node_size (remove_edge t i ui).1 = node_size t :=
      node_size_remove_edge t i ui
    have h2 : Inv (add_edge (remove_edge t i ui).1 i vi) :=
      Inv_add_edge h1 (by omega) (by omega)
    exact ih _ vi ui h2
      (fun j hj => by
        rw [node_size_add_edge, hsz]
        exact hl j (List.mem_cons_of_mem _ hj))
      (by rw [node_size_add_edge, hsz]; exact hvi)

theorem Inv_contract_edge {t : TreeT} {v : Nat} (u : Nat) (h : Inv t)
    (hv : v < node_size t) : Inv (contract_edge t v u) := by
  unfold contract_edge
  have h1 : Inv (remove_edge t v u).1 := Inv_remove_edge v u h
  have hsz : node_size (remove_edge t v u).1 = node_size t :=
    node_size_remove_edge t v u
  exact Inv_contract_edge_loop _ _ v u h1
    (fun j hj => h1.2.1 _ j hj) (by omega)

theorem Inv_contract_chain_node {t : TreeT} (v : Nat) (h : Inv t) :
    Inv (contract_chain_node t v).1 := by
  unfold contract_chain_node
  split
  · exact h
  split
  · exact h
  split
  next l0 l1 rest heq =>
    have hl0 : l0 ∈ adjacent t v := by
      rw [heq]; exact List.mem_cons_self _ _
    have hl1 : l1 ∈ adjacent t v := by
      rw [heq]; exact List.mem_cons_of_mem _ (List.mem_cons_self _ _)
    have hl0s : l0 < node_size t := h.2.1 v l0 hl0
    have hl1s : l1 < node_size t := h.2.1 v l1 hl1
    have h1 : Inv (remove_edge t l0 v).1 := Inv_remove_edge l0 v h
    have h2 : Inv (remove_edge (remove_edge t l0 v).1 l1 v).1 :=
      Inv_remove_edge l1 v h1
    have hs1 := node_size_remove_edge t l0 v
    have hs2 := node_size_remove_edge (remove_edge t l0 v).1 l1 v
    exact Inv_add_edge h2 (by omega) (by omega)
  next => exact h

theorem contract_chain_node_fail_eq {t : TreeT} {v : Nat}
    (hf : (contract_chain_node t v).2 = false) :
    (contract_chain_node t v).1 = t := by
  unfold contract_chain_node at hf ⊢
  by_cases h1 : degree t v ≠ 2
  · rw [if_pos h1]
  · rw [if_neg h1] at hf ⊢
    by_cases h2 : v = t.root
    · rw [if_pos h2]
    · rw [if_neg h2] at hf ⊢
      cases hadj : adjacent t v with
      | nil => rfl
      | cons l0 rest =>
        cases rest with
        | nil => rfl
        | cons l1 rest2 =>
          rw [hadj] at hf
          simp at hf

theorem Inv_contract_chain_loop :
    ∀ (fuel : Nat) (st : List Nat) (t : TreeT), Inv t →
      Inv (contract_chain_loop fuel t st).1 := by
  intro fuel
  induction fuel with
  | zero => intro st t h; exact h
  | succ fuel ih =>
    intro st t h
    cases st with
    | nil => exact h
    | cons u rest =>
      unfold contract_chain_loop
      cases hp : contract_chain_node t u with
      | mk t1 b =>
        have hinv1 : Inv t1 := by
          have := Inv_contract_chain_node u h
          rw [hp] at this
          exact this
        cases b
        · exact hinv1
        · exact ih _ t1 hinv1

theorem Inv_contract_chain {t : TreeT} (v : Nat) (h : Inv t) :
    Inv (contract_chain t v).1 :=
  Inv_contract_chain_loop _ _ t h

theorem Inv_contract_all_chains_loop :
    ∀ (l : List Nat) (t : TreeT), Inv t →
      Inv (contract_all_chains_loop t l).1 := by
  intro l
  induction l with
  | nil => intro t h; exact h
  | cons i rest ih =>
    intro t h
    unfold contract_all_chains_loop
    cases hp : contract_chain_node t i with
    | mk t1 b =>
      have hinv1 : Inv t1 := by
        have := Inv_contract_chain_node i h
        rw [hp] at this
        exact this
      cases b
      · exact hinv1
      · exact ih t1 hinv1

theorem Inv_contract_all_chains {t : TreeT} (h : Inv t) :
    Inv (contract_all_chains t).1 :=
  Inv_contract_all_chains_loop _ t h

theorem Inv_trim_leaf {t : TreeT} (v : Nat) (h : Inv t) :
    Inv (trim_leaf t v).1 := by
  unfold trim_leaf
  split
  · exact h
  split
  next p rest heq =>
    exact Inv_contract_chain p (Inv_remove_edge v p h)
  next => exact h

theorem Inv_trim_leaves :
    ∀ (l : List Nat) (t : TreeT), Inv t → Inv (trim_leaves t l).1 := by
  intro l
  induction l with
  | nil => intro t h; exact h
  | cons v rest ih =>
    intro t h
    unfold trim_leaves
    cases hp : trim_leaf t v with
    | mk t1 b =>
      have hinv1 : Inv t1 := by
        have := Inv_trim_leaf v h
        rw [hp] at this
        exact this
      cases b
      · exact hinv1
      · exact ih t1 hinv1

theorem Inv_trim_root_loop :
    ∀ (fuel : Nat) (t : TreeT), Inv t → Inv (trim_root_loop fuel t) := by
  intro fuel
  induction fuel with
  | zero => intro t h; exact h
  | succ fuel ih =>
    intro t h
    unfold trim_root_loop
    split
    · split
      next c rest heq =>
        have hc : c ∈ adjacent t t.root := by
          rw [heq]; exact List.mem_cons_self _ _
        have hcs : c < node_size t := h.2.1 _ c hc
        have h1 : Inv (remove_edge t c t.root).1 := Inv_remove_edge c t.root h
        have hs1 := node_size_remove_edge t c t.root
        exact ih _ (Inv_set_root h1 (Or.inr (by omega)))
      next => exact h
    · exact h

theorem Inv_trim_root {t : TreeT} (h : Inv t) : Inv (trim_root t).1 := by
  unfold trim_root
  split
  · exact h
  split
  · exact h
  exact Inv_trim_root_loop _ t h

theorem Inv_trim_leaves_rooted {t : TreeT} (l : List Nat) (h : Inv t) :
    Inv (trim_leaves_rooted t l).1 :=
  Inv_trim_root (Inv_trim_leaves l t h)

theorem Inv_disconnect_node_loop :
    ∀ (fuel : Nat) (t : TreeT) (v : Nat), Inv t →
      Inv (disconnect_node_loop fuel t v) := by
  intro fuel
  induction fuel with
  | zero => intro t v h; exact h
  | succ fuel ih =>
    intro t v h
    unfold disconnect_node_loop
    split
    next => exact h
    next u rest heq => exact ih _ v (Inv_remove_edge v u h)

theorem Inv_disconnect_node {t : TreeT} (v : Nat) (h : Inv t) :
    Inv (disconnect_node t v) :=
  Inv_disconnect_node_loop _ t v h

theorem Inv_remove_edges_loop :
    ∀ (l : List Nat) (t : TreeT) (c : Nat), Inv t →
      Inv (remove_edges_loop t c l).1 := by
  intro l
  induction l with
  | nil => intro t c h; exact h
  | cons i rest ih =>
    intro t c h
    unfold remove_edges_loop
    cases hp : remove_edge t c i with
    | mk t1 b =>
      have hinv1 : Inv t1 := by
        have := Inv_remove_edge c i h
        rw [hp] at this
        exact this
      cases b
      · exact hinv1
      · exact ih t1 c hinv1

theorem node_size_remove_edges_loop :
    ∀ (l : List Nat) (t : TreeT) (c : Nat),
      node_size (remove_edges_loop t c l).1 = node_size t := by
  intro l
  induction l with
  | nil => intro t c; rfl
  | cons i rest ih =>
    intro t c
    unfold remove_edges_loop
    cases hp : remove_edge t c i with
    | mk t1 b =>
      have hsz : node_size t1 = node_size t := by
        have := node_size_remove_edge t c i
        rw [hp] at this
        exact this
      cases b
      · exact hsz
      · rw [ih t1 c, hsz]

theorem root_remove_edges_loop :
    ∀ (l : List Nat) (t : TreeT) (c : Nat),
      (remove_edges_loop t c l).1.root = t.root := by
  intro l
  induction l with
  | nil => intro t c; rfl
  | cons i rest ih =>
    intro t c
    unfold remove_edges_loop
    cases hp : remove_edge t c i with
    | mk t1 b =>
      have hsz : t1.root = t.root := by
        have := root_remove_edge t c i
        rw [hp] at this
        exact this
      cases b
      · exact hsz
      · rw [ih t1 c, hsz]

theorem Inv_add_edges_loop :
    ∀ (l : List Nat) (t : TreeT) (n : Nat), Inv t →
      (∀ i ∈ l, i < node_size t) → n < node_size t →
      Inv (add_edges_loop t n l) := by
  intro l
  induction l with
  | nil => intro t n h _ _; exact h
  | cons i rest ih =>
    intro t n h hl hn
    unfold add_edges_loop
    have hi : i < node_size t := hl i (List.mem_cons_self _ _)
    refine ih _ n (Inv_add_edge h hn hi) ?_ ?_
    · intro j hj
      rw [node_size_add_edge]
      exact hl j (List.mem_cons_of_mem _ hj)
    · rw [node_size_add_edge]
      exact hn

theorem node_size_add_edges_loop :
    ∀ (l : List Nat) (t : TreeT) (n : Nat),
      node_size (add_edges_loop t n l) = node_size t := by
  intro l
  induction l with
  | nil => intro t n; rfl
  | cons i rest ih =>
    intro t n
    unfold add_edges_loop
    rw [ih, node_size_add_edge]

theorem root_add_edges_loop :
    ∀ (l : List Nat) (t : TreeT) (n : Nat),
      (add_edges_loop t n l).root = t.root := by
  intro l
  induction l with
  | nil => intro t n; rfl
  | cons i rest ih =>
    intro t n
    unfold add_edges_loop
    rw [ih, root_add_edge]

theorem Inv_sprPruneCh {t : TreeT} (center : Nat) (ch : List Nat) (h : Inv t)
    (hch : ∀ i ∈ ch, i < node_size t) : Inv (sprPruneCh t center ch).1 := by
  unfold sprPruneCh
  cases hp : remove_edges_loop t center ch with
  | mk t1 b =>
    have hinv1 : Inv t1 := by
      have := Inv_remove_edges_loop ch t center h
      rw [hp] at this
      exact this
    have hsz1 : node_size t1 = node_size t := by
      have := node_size_remove_edges_loop ch t center
      rw [hp] at this
      exact this
    cases b
    · exact hinv1
    · dsimp only
      split
      next hlen =>
        have h0 : ch.getD 0 0 ∈ ch := getD_mem_of_lt (by omega) 0
        have h1 : ch.getD 1 0 ∈ ch := getD_mem_of_lt (by omega) 0
        exact Inv_add_edge hinv1 (by rw [hsz1]; exact hch _ h0)
          (by rw [hsz1]; exact hch _ h1)
      split
      next hlen2 =>
        have hnn : Inv (new_node t1).1 := Inv_new_node hinv1
        refine Inv_add_edges_loop _ _ _ hnn ?_ ?_
        · intro j hj
          rw [node_size_new_node, hsz1]
          exact Nat.lt_succ_of_lt (hch j hj)
        · show (new_node t1).2 < node_size (new_node t1).1
          rw [node_size_new_node]
          show node_size t1 < node_size t1 + 1
          omega
      next => exact hinv1

theorem Inv_sprPrune {t : TreeT} (center excluded : Nat) (h : Inv t) :
    Inv (sprPrune t center excluded).1 := by
  unfold sprPrune
  refine Inv_sprPruneCh center _ h ?_
  intro i hi
  exact h.2.1 center i (List.mem_of_mem_filter hi)

theorem node_size_sprPruneCh_ge {t : TreeT} (center : Nat) (ch : List Nat) :
    node_size t ≤ node_size (sprPruneCh t center ch).1 := by
  unfold sprPruneCh
  cases hp : remove_edges_loop t center ch with
  | mk t1 b =>
    have hsz1 : node_size t1 = node_size t := by
      have := node_size_remove_edges_loop ch t center
      rw [hp] at this
      exact this
    cases b
    · dsimp only
      omega
    · dsimp only
      split
      · rw [node_size_add_edge]; omega
      split
      · show node_size t ≤ node_size
          (add_edges_loop (new_node t1).1 (new_node t1).2 ch)
        rw [node_size_add_edges_loop, node_size_new_node]
        omega
      · dsimp only
        omega

theorem node_size_sprPrune_ge {t : TreeT} (center excluded : Nat) :
    node_size t ≤ node_size (sprPrune t center excluded).1 :=
  node_size_sprPruneCh_ge center _

theorem root_sprPruneCh {t : TreeT} (center : Nat) (ch : List Nat) :
    (sprPruneCh t center ch).1.root = t.root := by
  unfold sprPruneCh
  cases hp : remove_edges_loop t center ch with
  | mk t1 b =>
    have hr1 : t1.root = t.root := by
      have := root_remove_edges_loop ch t center
      rw [hp] at this
      exact this
    cases b
    · exact hr1
    · dsimp only
      split
      · rw [root_add_edge]; exact hr1
      split
      · show (add_edges_loop (new_node t1).1 (new_node t1).2 ch).root = t.root
        rw [root_add_edges_loop]
        exact hr1
      · exact hr1

theorem root_sprPrune {t : TreeT} (center excluded : Nat) :
    (sprPrune t center excluded).1.root = t.root :=
  root_sprPruneCh center _

theorem Inv_spr {t : TreeT} {n pn u v : Nat} (h : Inv t)
    (hpn : pn < node_size t) (hu : u < node_size t) (hv : v < node_size t) :
    Inv (spr t n pn u v).1 := by
  unfold spr
  split
  · exact h
  split
  · exact h
  cases hp : sprPrune t pn n with
  | mk t1 b =>
    have hinv1 : Inv t1 := by
      have := Inv_sprPrune pn n h
      rw [hp] at this; exact this
    have hsz1 : node_size t ≤ node_size t1 := by
      have := node_size_sprPrune_ge (t := t) pn n
      rw [hp] at this; exact this
    cases b
    · exact hinv1
    · dsimp only
      cases hq : remove_edge t1 u v with
      | mk t2 b2 =>
        have hinv2 : Inv t2 := by
          have := Inv_remove_edge u v hinv1
          rw [hq] at this; exact this
        have hsz2 : node_size t2 = node_size t1 := by
          have := node_size_remove_edge t1 u v
          rw [hq] at this; exact this
        cases b2
        · exact hinv2
        · refine Inv_add_edge (Inv_add_edge hinv2 (by omega) (by omega)) ?_ ?_
          · rw [node_size_add_edge]; omega
          · rw [node_size_add_edge]; omega

theorem Inv_reroot {t : TreeT} {n pn u v : Nat} (h : Inv t)
    (hn : n < node_size t) (hu : u < node_size t) (hv : v < node_size t) :
    Inv (reroot t n pn u v).1 := by
  unfold reroot
  split
  · exact h
  split
  · exact h
  cases hp : sprPrune t n pn with
  | mk t1 b =>
    have hinv1 : Inv t1 := by
      have := Inv_sprPrune n pn h
      rw [hp] at this; exact this
    have hsz1 : node_size t ≤ node_size t1 := by
      have := node_size_sprPrune_ge (t := t) n pn
      rw [hp] at this; exact this
    cases b
    · exact hinv1
    · dsimp only
      cases hq : remove_edge t1 u v with
      | mk t2 b2 =>
        have hinv2 : Inv t2 := by
          have := Inv_remove_edge u v hinv1
          rw [hq] at this; exact this
        have hsz2 : node_size t2 = node_size t1 := by
          have := node_size_remove_edge t1 u v
          rw [hq] at this; exact this
        cases b2
        · exact hinv2
        · refine Inv_add_edge (Inv_add_edge hinv2 (by omega) (by omega)) ?_ ?_
          · rw [node_size_add_edge]; omega
          · rw [node_size_add_edge]; omega

theorem Inv_spr_to_root {t : TreeT} {u pu : Nat} (h : Inv t)
    (hpu : pu < node_size t) : Inv (spr_to_root t u pu).1 := by
  unfold spr_to_root
  split
  · exact h
  next hrooted =>
    split
    · exact h
    split
    · exact h
    have hroot : t.root < node_size t := by
      rcases h.2.2.2.2 with hr | hr
      · exfalso
        apply hrooted
        simp [is_rooted, hr]
      · exact hr
    cases hp : sprPrune t pu u with
    | mk t1 b =>
      have hinv1 : Inv t1 := by
        have := Inv_sprPrune pu u h
        rw [hp] at this; exact this
      have hsz1 : node_size t ≤ node_size t1 := by
        have := node_size_sprPrune_ge (t := t) pu u
        rw [hp] at this; exact this
      have hr1 : t1.root = t.root := by
        have := root_sprPrune (t := t) pu u
        rw [hp] at this; exact this
      cases b
      · exact hinv1
      · dsimp only
        have hadd : Inv (add_edge t1 pu t1.root) :=
          Inv_add_edge hinv1 (by omega) (by rw [hr1]; omega)
        exact Inv_set_root hadd (Or.inr (by rw [node_size_add_edge]; omega))

theorem Inv_spr_from_root {t : TreeT} {c r u v : Nat} (h : Inv t)
    (hr : r < node_size t) (hu : u < node_size t) (hv : v < node_size t) :
    Inv (spr_from_root t c r u v).1 := by
  unfold spr_from_root
  split
  · exact h
  next hrooted =>
    split
    · exact h
    have hroot : t.root < node_size t := by
      rcases h.2.2.2.2 with hro | hro
      · exfalso
        apply hrooted
        simp [is_rooted, hro]
      · exact hro
    cases hp : remove_edges_loop t t.root (children_vector t t.root c) with
    | mk t1 b =>
      have hinv1 : Inv t1 := by
        have := Inv_remove_edges_loop (children_vector t t.root c) t t.root h
        rw [hp] at this; exact this
      have hsz1 : node_size t1 = node_size t := by
        have := node_size_remove_edges_loop (children_vector t t.root c) t t.root
        rw [hp] at this; exact this
      have hr1 : t1.root = t.root := by
        have := root_remove_edges_loop (children_vector t t.root c) t t.root
        rw [hp] at this; exact this
      cases b
      · exact hinv1
      · dsimp only
        cases hq : remove_edge t1 u v with
        | mk t2 b2 =>
          have hinv2 : Inv t2 := by
            have := Inv_remove_edge u v hinv1
            rw [hq] at this; exact this
          have hsz2 : node_size t2 = node_size t1 := by
            have := node_size_remove_edge t1 u v
            rw [hq] at this; exact this
          have hrr : t2.root = t1.root := by
            have := root_remove_edge t1 u v
            rw [hq] at this; exact this
          cases b2
          · exact hinv2
          · have hadd : Inv (add_edge (add_edge t2 t1.root u) t1.root v) := by
              refine Inv_add_edge (Inv_add_edge hinv2 ?_ ?_) ?_ ?_
              · rw [hr1]; omega
              · omega
              · rw [node_size_add_edge, hr1]; omega
              · rw [node_size_add_edge]; omega
            exact Inv_set_root hadd
              (Or.inr (by rw [node_size_add_edge, node_size_add_edge]; omega))

/-! #### The reachable-state invariant over operation sequences -/

theorem Inv_applyOp {t : TreeT} {op : Op} (h : Inv t)
    (hv : validOp t op = true) : Inv (applyOp t op) := by
  cases op with
  | op_new_node => exact Inv_new_node h
  | op_add_edge v u =>
    simp only [validOp, Bool.and_eq_true, decide_eq_true_eq] at hv
    exact Inv_add_edge h hv.1 hv.2
  | op_remove_edge v u => exact Inv_remove_edge v u h
  | op_contract_edge v u =>
    simp only [validOp, Bool.and_eq_true, decide_eq_true_eq] at hv
    exact Inv_contract_edge u h hv.1
  | op_contract_chain_node v => exact Inv_contract_chain_node v h
  | op_contract_chain v => exact Inv_contract_chain v h
  | op_contract_all_chains => exact Inv_contract_all_chains h
  | op_trim_leaf v => exact Inv_trim_leaf v h
  | op_trim_leaves l => exact Inv_trim_leaves l t h
  | op_trim_leaves_rooted l => exact Inv_trim_leaves_rooted l h
  | op_trim_root => exact Inv_trim_root h
  | op_spr_to_root u pu =>
    simp only [validOp, decide_eq_true_eq] at hv
    exact Inv_spr_to_root h hv
  | op_spr_from_root c r u v =>
    simp only [validOp, Bool.and_eq_true, decide_eq_true_eq] at hv
    exact Inv_spr_from_root h hv.1.1 hv.1.2 hv.2
  | op_spr n pn u v =>
    simp only [validOp, Bool.and_eq_true, decide_eq_true_eq] at hv
    exact Inv_spr h hv.1.1 hv.1.2 hv.2
  | op_reroot n pn u v =>
    simp only [validOp, Bool.and_eq_true, decide_eq_true_eq] at hv
    exact Inv_reroot h hv.1.1 hv.1.2 hv.2
  | op_disconnect_node v => exact Inv_disconnect_node v h
  | op_clear => exact Inv_clear

theorem Inv_applyOps :
    ∀ (ops : List Op) (t : TreeT), Inv t → validOps t ops = true →
      Inv (applyOps t ops) := by
  intro ops
  induction ops with
  | nil => intro t h _; exact h
  | cons op rest ih =>
    intro t h hv
    unfold validOps at hv
    rw [Bool.and_eq_true] at hv
    show Inv (applyOps (applyOp t op) rest)
    exact ih _ (Inv_applyOp h hv.1) hv.2

theorem sumDeg_eq_sum_degree (t : TreeT) :
    sumDeg t = ∑ v in Finset.range (node_size t), degree t v := by
  show (t.nodes23.map List.length).sum
    = ∑ v in Finset.range t.nodes23.length, (t.nodes23.getD v []).length
  generalize t.nodes23 = l
  induction l with
  | nil => simp
  | cons a l ih =>
    rw [List.map_cons, List.sum_cons, ih, List.length_cons,
      Finset.sum_range_succ']
    simp only [List.getD_cons_succ, List.getD_cons_zero]
    omega

/-! ### Claim C1 -/

/-- C1: for every sequence of mutating operations (new_node, add_edge,
remove_edge, contract_edge, contract_chain_node, contract_chain,
contract_all_chains, trim_leaf, trim_leaves, trim_leaves_rooted, trim_root,
spr_to_root, spr_from_root, spr, reroot, disconnect_node, clear) applied to
an initially empty tree — with every node-id argument that the source
indexes the store with referring to an existing node, since anything else is
out-of-bounds undefined behaviour in the source — the resulting state
satisfies reciprocity (`u ∈ adjacent(v) ⟺ v ∈ adjacent(u)`) and
`edge_count = (Σ_v degree(v)) / 2`. -/
theorem c1_reciprocity_and_edge_count (ops : List Op)
    (hvalid : validOps clear ops = true) :
    (∀ u v, u ∈ adjacent (applyOps clear ops) v
        ↔ v ∈ adjacent (applyOps clear ops) u)
    ∧ (applyOps clear ops).edge_count
        = (∑ v in Finset.range (node_size (applyOps clear ops)),
            degree (applyOps clear ops) v) / 2 := by
  have h := Inv_applyOps ops clear Inv_clear hvalid
  obtain ⟨hrec, -, -, hec, -⟩ := h
  constructor
  · intro u v
    rw [mem_iff_cnt_pos, mem_iff_cnt_pos, hrec u v]
  · have hec2 : 2 * (applyOps clear ops).edge_count
        = sumDeg (applyOps clear ops) := hec
    rw [← sumDeg_eq_sum_degree]
    omega

/-- Witness for C1: a concrete valid operation sequence (builds a star,
performs an SPR move, trims a leaf, contracts all chains). -/
theorem c1_reciprocity_and_edge_count_witness :
    validOps clear
      [Op.op_new_node, Op.op_new_node, Op.op_new_node, Op.op_new_node,
        Op.op_add_edge 0 1, Op.op_add_edge 0 2, Op.op_add_edge 0 3,
        Op.op_add_edge 2 3, Op.op_spr 1 0 2 3, Op.op_trim_leaf 1,
        Op.op_contract_all_chains] = true
    ∧ ((∀ u v,
          u ∈ adjacent (applyOps clear
            [Op.op_new_node, Op.op_new_node, Op.op_new_node, Op.op_new_node,
              Op.op_add_edge 0 1, Op.op_add_edge 0 2, Op.op_add_edge 0 3,
              Op.op_add_edge 2 3, Op.op_spr 1 0 2 3, Op.op_trim_leaf 1,
              Op.op_contract_all_chains]) v
          ↔ v ∈ adjacent (applyOps clear
            [Op.op_new_node, Op.op_new_node, Op.op_new_node, Op.op_new_node,
              Op.op_add_edge 0 1, Op.op_add_edge 0 2, Op.op_add_edge 0 3,
              Op.op_add_edge 2 3, Op.op_spr 1 0 2 3, Op.op_trim_leaf 1,
              Op.op_contract_all_chains]) u)
        ∧ (applyOps clear
            [Op.op_new_node, Op.op_new_node, Op.op_new_node, Op.op_new_node,
              Op.op_add_edge 0 1, Op.op_add_edge 0 2, Op.op_add_edge 0 3,
              Op.op_add_edge 2 3, Op.op_spr 1 0 2 3, Op.op_trim_leaf 1,
              Op.op_contract_all_chains]).edge_count
            = (∑ v in Finset.range (node_size (applyOps clear
                [Op.op_new_node, Op.op_new_node, Op.op_new_node, Op.op_new_node,
                  Op.op_add_edge 0 1, Op.op_add_edge 0 2, Op.op_add_edge 0 3,
                  Op.op_add_edge 2 3, Op.op_spr 1 0 2 3, Op.op_trim_leaf 1,
                  Op.op_contract_all_chains])),
                degree (applyOps clear
                  [Op.op_new_node, Op.op_new_node, Op.op_new_node, Op.op_new_node,
                    Op.op_add_edge 0 1, Op.op_add_edge 0 2, Op.op_add_edge 0 3,
                    Op.op_add_edge 2 3, Op.op_spr 1 0 2 3, Op.op_trim_leaf 1,
                    Op.op_contract_all_chains]) v) / 2) :=
  ⟨by decide, c1_reciprocity_and_edge_count _ (by decide)⟩

/-! ### Claim C8 -/

/-- C8: for every tree and all node ids `n, pn, u, v` with `pn = u` or
`pn = v`, the call `spr(n, pn, u, v)` returns success and leaves the entire
tree state (adjacency lists, root marker and edge counter) unchanged. -/
theorem c8_spr_trivial_noop (t : TreeT) (n pn u v : Nat)
    (h : pn = u ∨ pn = v) : spr t n pn u v = (t, true) := by
  unfold spr
  rcases h with h | h
  · rw [if_pos h]
  · by_cases h2 : pn = u
    · rw [if_pos h2]
    · rw [if_neg h2, if_pos h]

/-- Witness for C8 at a concrete tree and arguments. -/
theorem c8_spr_trivial_noop_witness :
    (0 = 0 ∨ (0 : Nat) = 1)
    ∧ spr ⟨[[1], [0]], NONODE, 1⟩ 1 0 0 1 = (⟨[[1], [0]], NONODE, 1⟩, true) :=
  ⟨Or.inl rfl, c8_spr_trivial_noop _ 1 0 0 1 (Or.inl rfl)⟩

/-! ### Claim C10 -/

/-- C10: `spr_to_root(u, pu)` fails with the tree unchanged whenever the
tree is unrooted or `u` is the root (moving the whole tree is an error, not
a no-op); when the tree is rooted, `u` is not the root and `pu` is the root,
it succeeds with the tree unchanged.  The guards are checked in that order,
so the success clause holds on the states the earlier guards let through. -/
theorem c10_spr_to_root_guards (t : TreeT) (u pu : Nat) :
    (is_rooted t = false → spr_to_root t u pu = (t, false))
    ∧ (is_rooted t = true → u = t.root → spr_to_root t u pu = (t, false))
    ∧ (is_rooted t = true → u ≠ t.root → pu = t.root →
        spr_to_root t u pu = (t, true)) := by
  refine ⟨?_, ?_, ?_⟩
  · intro h
    unfold spr_to_root
    rw [h]
    rfl
  · intro h hu
    unfold spr_to_root
    rw [h]
    show (if u = t.root then (t, false) else _) = (t, false)
    rw [if_pos hu]
  · intro h hu hpu
    unfold spr_to_root
    rw [h]
    show (if u = t.root then (t, false) else _) = (t, true)
    rw [if_neg hu]
    rw [if_pos hpu]

/-- Witness for C10: a two-node tree rooted at 0, exercising all three
guard clauses. -/
theorem c10_spr_to_root_guards_witness :
    (is_rooted ⟨[[1], [0]], NONODE, 1⟩ = false
      ∧ spr_to_root ⟨[[1], [0]], NONODE, 1⟩ 0 1
        = (⟨[[1], [0]], NONODE, 1⟩, false))
    ∧ (is_rooted ⟨[[1], [0]], 0, 1⟩ = true
      ∧ spr_to_root ⟨[[1], [0]], 0, 1⟩ 0 1 = (⟨[[1], [0]], 0, 1⟩, false))
    ∧ (is_rooted ⟨[[1], [0]], 0, 1⟩ = true ∧ (1 : Nat) ≠ 0
      ∧ spr_to_root ⟨[[1], [0]], 0, 1⟩ 1 0 = (⟨[[1], [0]], 0, 1⟩, true)) := by
  refine ⟨⟨by decide, ?_⟩, ⟨by decide, ?_⟩, by decide, by decide, ?_⟩
  · exact (c10_spr_to_root_guards _ 0 1).1 (by decide)
  · exact (c10_spr_to_root_guards _ 0 1).2.1 (by decide) (by decide)
  · exact (c10_spr_to_root_guards _ 1 0).2.2 (by decide) (by decide) (by decide)

/-! ### Claim C9 -/

/-- C9 counterexample: on the empty tree the `begin_dfs()` construction
never reaches `children(idx, parent)` at all — the constructor guard
`idx != node_size()` fails because both sides are `0`, `dfs_init()` is
skipped, and no node-store access is performed, refuting the claimed
out-of-bounds access with `idx = UINT_MAX`. -/
theorem c9_counterexample :
    node_size clear = 0
    ∧ begin_dfs_runs_init clear = false
    ∧ begin_dfs_accesses clear = []
    ∧ begin_dfs_safe clear := by
  decide

/-- C9 (amended): the traversal construction `begin_dfs()` is safe (every
node-store access in bounds) on every tree with a valid root marker, with no
nonemptiness precondition.  On an empty tree the constructor guard
(`idx != node_size()`, with `idx = 0`) skips `dfs_init()` entirely, so no
node-store access occurs — though the body of `dfs_init()`, were it entered
there, would call `children` with `idx = UINT_MAX`.  On a nonempty tree
`dfs_init()` runs and its `children(idx, parent)` call reads the root marker
(or node 0 when unrooted), which is in bounds. -/
theorem c9_amended_begin_dfs_safe (t : TreeT) (hro : RootOk t) :
    begin_dfs_safe t
    ∧ (node_size t = 0 →
        begin_dfs_accesses t = [] ∧ dfs_init_default_access t = NONODE)
    ∧ (node_size t ≠ 0 →
        begin_dfs_accesses t = [dfs_init_default_access t]
        ∧ dfs_init_default_access t < node_size t) := by
  by_cases hsz : node_size t = 0
  · have hrun : begin_dfs_runs_init t = false := by
      unfold begin_dfs_runs_init
      rw [hsz]
      rfl
    have hacc : begin_dfs_accesses t = [] := by
      unfold begin_dfs_accesses
      rw [hrun]
      rfl
    have hempty : t.nodes23.isEmpty = true := by
      cases hn : t.nodes23 with
      | nil => rfl
      | cons a l =>
        have h0 : t.nodes23.length = 0 := hsz
        rw [hn] at h0
        simp at h0
    refine ⟨?_, fun _ => ⟨hacc, ?_⟩, fun hc => absurd hsz hc⟩
    · unfold begin_dfs_safe
      intro i hi
      rw [hacc] at hi
      simp at hi
    · unfold dfs_init_default_access
      rw [if_pos hempty]
  · have hrun : begin_dfs_runs_init t = true := by
      unfold begin_dfs_runs_init
      exact decide_eq_true (fun hc => hsz hc.symm)
    have hnonempty : t.nodes23.isEmpty = false := by
      cases hn : t.nodes23 with
      | nil =>
        exfalso
        apply hsz
        show t.nodes23.length = 0
        rw [hn]
        rfl
      | cons a l => rfl
    have hacclt : dfs_init_default_access t < node_size t := by
      show (if t.nodes23.isEmpty then NONODE
        else if t.root = NONODE then 0 else t.root) < node_size t
      rw [if_neg (by rw [hnonempty]; exact Bool.noConfusion)]
      by_cases hr : t.root = NONODE
      · rw [if_pos hr]
        exact Nat.pos_of_ne_zero hsz
      · rw [if_neg hr]
        rcases hro with h1 | h2
        · exact absurd h1 hr
        · exact h2
    have hacc : begin_dfs_accesses t = [dfs_init_default_access t] := by
      unfold begin_dfs_accesses
      rw [if_pos hrun]
    refine ⟨?_, fun hc => absurd hc hsz, fun _ => ⟨hacc, hacclt⟩⟩
    unfold begin_dfs_safe
    intro i hi
    rw [hacc] at hi
    simp at hi
    rw [hi]
    exact hacclt

/-! ### Helper lemmas for symbolic evaluation of edits -/

theorem adjacent_with_edge_count (t : TreeT) (e : Nat) (w : Nat) :
    adjacent { t with edge_count := e } w = adjacent t w := rfl

theorem remove_edge_eq_of_swaps {t : TreeT} {v u : Nat} {av au : List Nat}
    (h1 : swapRemove (adjacent t v) u = some av)
    (h2 : swapRemove (adjacent (setAdj t v av) u) v = some au) :
    remove_edge t v u
      = ({ setAdj (setAdj t v av) u au with
            edge_count := t.edge_count - 1 }, true) := by
  unfold remove_edge
  rw [h1]
  dsimp only
  rw [h2]
  rfl

theorem contract_chain_loop_nil {fuel : Nat} (h : 0 < fuel) (t : TreeT) :
    contract_chain_loop fuel t [] = (t, some true) := by
  cases fuel with
  | zero => omega
  | succ f => rfl

theorem degree_le_sumDeg {t : TreeT} {v : Nat} (h : v < node_size t) :
    degree t v ≤ sumDeg t := by
  have hmem : adjacent t v ∈ t.nodes23 := by
    unfold adjacent
    rw [List.getD_eq_getElem?_getD, List.getElem?_eq_getElem h]
    exact List.getElem_mem h
  have hmem2 : (adjacent t v).length ∈ t.nodes23.map List.length :=
    List.mem_map_of_mem _ hmem
  exact List.single_le_sum (fun x _ => Nat.zero_le x) _ hmem2

/-- Witness for C9 (amended): on the rooted two-node tree the construction
performs exactly the in-bounds root access, and on the empty tree it
performs no access at all. -/
theorem c9_amended_begin_dfs_safe_witness :
    (RootOk ⟨[[1], [0]], 0, 1⟩
      ∧ begin_dfs_safe ⟨[[1], [0]], 0, 1⟩
      ∧ begin_dfs_accesses ⟨[[1], [0]], 0, 1⟩
          = [dfs_init_default_access ⟨[[1], [0]], 0, 1⟩]
      ∧ dfs_init_default_access ⟨[[1], [0]], 0, 1⟩
          < node_size ⟨[[1], [0]], 0, 1⟩)
    ∧ (RootOk clear ∧ begin_dfs_safe clear
        ∧ begin_dfs_accesses clear = []) := by
  have h1 := c9_amended_begin_dfs_safe ⟨[[1], [0]], 0, 1⟩
    (Or.inr (by decide))
  have h2 := c9_amended_begin_dfs_safe clear (Or.inl rfl)
  exact ⟨⟨Or.inr (by decide), h1.1, (h1.2.2 (by decide)).1,
      (h1.2.2 (by decide)).2⟩,
    Or.inl rfl, h2.1, (h2.2.1 rfl).1⟩

/-! ### Claim C3 -/

/-- C3 counterexample: on the unrooted star with center 0 and leaves 1, 2, 3,
`trim_leaf(1)` returns success but — contrary to the claim — does not leave
the center with degree 2: `trim_leaf` itself invokes `contract_chain` on the
center, which collapses it immediately, so the center ends with degree 0 and
the direct edge between the two remaining leaves already exists. -/
theorem c3_counterexample :
    (trim_leaf ⟨[[1, 2, 3], [0], [0], [0]], NONODE, 3⟩ 1).2 = true
    ∧ degree (trim_leaf ⟨[[1, 2, 3], [0], [0], [0]], NONODE, 3⟩ 1).1 0 ≠ 2
    ∧ degree (trim_leaf ⟨[[1, 2, 3], [0], [0], [0]], NONODE, 3⟩ 1).1 0 = 0
    ∧ 3 ∈ adjacent (trim_leaf ⟨[[1, 2, 3], [0], [0], [0]], NONODE, 3⟩ 1).1 2
    ∧ 2 ∈ adjacent (trim_leaf ⟨[[1, 2, 3], [0], [0], [0]], NONODE, 3⟩ 1).1 3 := by
  decide

/-- C3 (amended): for an unrooted star tree with center `c` and exactly
three leaves `a`, `b`, `d` (adjacency as built by `add_edge(c,a)`,
`add_edge(c,b)`, `add_edge(c,d)`), `trim_leaf(a)` returns success and — the
cascade `contract_chain(c)` being invoked by `trim_leaf` itself — already
collapses `c`, yielding the direct edge `(b,d)` and leaving both `a` and `c`
isolated; no subsequent chain contraction is needed, and indeed
`contract_chain(c)` applied afterwards fails without changing the tree. -/
theorem c3_amended_star_trim (t : TreeT) (c a b d : Nat)
    (hca : c ≠ a) (hcb : c ≠ b) (hcd : c ≠ d) (hab : a ≠ b) (had : a ≠ d)
    (hbd : b ≠ d) (hcN : c ≠ NONODE) (hroot : t.root = NONODE)
    (hec : 3 ≤ t.edge_count)
    (hc : adjacent t c = [a, b, d]) (ha : adjacent t a = [c])
    (hb : adjacent t b = [c]) (hd : adjacent t d = [c]) :
    (trim_leaf t a).2 = true
    ∧ adjacent (trim_leaf t a).1 c = []
    ∧ adjacent (trim_leaf t a).1 b = [d]
    ∧ adjacent (trim_leaf t a).1 d = [b]
    ∧ adjacent (trim_leaf t a).1 a = []
    ∧ (trim_leaf t a).1.edge_count + 2 = t.edge_count
    ∧ contract_chain (trim_leaf t a).1 c = ((trim_leaf t a).1, some false) := by
  have hcs : c < node_size t := adjacent_nonempty_lt (by rw [hc]; simp)
  have has : a < node_size t := adjacent_nonempty_lt (by rw [ha]; simp)
  have hbs : b < node_size t := adjacent_nonempty_lt (by rw [hb]; simp)
  have hds : d < node_size t := adjacent_nonempty_lt (by rw [hd]; simp)
  -- step 1: remove_edge(a, c) inside trim_leaf
  have hsw1 : swapRemove (adjacent t a) c = some [] := by
    rw [ha]; simp [swapRemove, firstIdx]
  have hsw2 : swapRemove (adjacent (setAdj t a []) c) a = some [d, b] := by
    rw [adjacent_setAdj_ne hca, hc]
    simp [swapRemove, firstIdx]
  have e1 := remove_edge_eq_of_swaps hsw1 hsw2
  have hAc : adjacent (remove_edge t a c).1 c = [d, b] := by
    rw [e1]
    show adjacent (setAdj (setAdj t a []) c [d, b]) c = [d, b]
    rw [adjacent_setAdj_self (by simpa using hcs)]
  have hAa : adjacent (remove_edge t a c).1 a = [] := by
    rw [e1]
    show adjacent (setAdj (setAdj t a []) c [d, b]) a = []
    rw [adjacent_setAdj_ne (Ne.symm hca), adjacent_setAdj_self has]
  have hAb : adjacent (remove_edge t a c).1 b = [c] := by
    rw [e1]
    show adjacent (setAdj (setAdj t a []) c [d, b]) b = [c]
    rw [adjacent_setAdj_ne (Ne.symm hcb), adjacent_setAdj_ne (Ne.symm hab), hb]
  have hAd : adjacent (remove_edge t a c).1 d = [c] := by
    rw [e1]
    show adjacent (setAdj (setAdj t a []) c [d, b]) d = [c]
    rw [adjacent_setAdj_ne (Ne.symm hcd), adjacent_setAdj_ne (Ne.symm had), hd]
  have hAroot : (remove_edge t a c).1.root = t.root := root_remove_edge t a c
  have hAsize : node_size (remove_edge t a c).1 = node_size t :=
    node_size_remove_edge t a c
  have hAec : (remove_edge t a c).1.edge_count = t.edge_count - 1 := by
    rw [e1]
  set A := (remove_edge t a c).1 with hAdef
  have hcsA : c < node_size A := by rw [hAsize]; exact hcs
  have hbsA : b < node_size A := by rw [hAsize]; exact hbs
  have hdsA : d < node_size A := by rw [hAsize]; exact hds
  -- step 2: remove_edge(d, c) inside contract_chain_node(c)
  have hsw3 : swapRemove (adjacent A d) c = some [] := by
    rw [hAd]; simp [swapRemove, firstIdx]
  have hsw4 : swapRemove (adjacent (setAdj A d []) c) d = some [b] := by
    rw [adjacent_setAdj_ne hcd, hAc]
    simp [swapRemove, firstIdx]
  have e2 := remove_edge_eq_of_swaps hsw3 hsw4
  have hBc : adjacent (remove_edge A d c).1 c = [b] := by
    rw [e2]
    show adjacent (setAdj (setAdj A d []) c [b]) c = [b]
    rw [adjacent_setAdj_self (by simpa using hcsA)]
  have hBb : adjacent (remove_edge A d c).1 b = [c] := by
    rw [e2]
    show adjacent (setAdj (setAdj A d []) c [b]) b = [c]
    rw [adjacent_setAdj_ne (Ne.symm hcb), adjacent_setAdj_ne hbd, hAb]
  have hBd : adjacent (remove_edge A d c).1 d = [] := by
    rw [e2]
    show adjacent (setAdj (setAdj A d []) c [b]) d = []
    rw [adjacent_setAdj_ne (Ne.symm hcd), adjacent_setAdj_self hdsA]
  have hBa : adjacent (remove_edge A d c).1 a = [] := by
    rw [e2]
    show adjacent (setAdj (setAdj A d []) c [b]) a = []
    rw [adjacent_setAdj_ne (Ne.symm hca), adjacent_setAdj_ne had, hAa]
  have hBsize : node_size (remove_edge A d c).1 = node_size A :=
    node_size_remove_edge A d c
  have hBec : (remove_edge A d c).1.edge_count = A.edge_count - 1 := by
    rw [e2]
  set B := (remove_edge A d c).1 with hBdef
  have hcsB : c < node_size B := by rw [hBsize]; exact hcsA
  have hbsB : b < node_size B := by rw [hBsize]; exact hbsA
  -- step 3: remove_edge(b, c) inside contract_chain_node(c)
  have hsw5 : swapRemove (adjacent B b) c = some [] := by
    rw [hBb]; simp [swapRemove, firstIdx]
  have hsw6 : swapRemove (adjacent (setAdj B b []) c) b = some [] := by
    rw [adjacent_setAdj_ne hcb, hBc]
    simp [swapRemove, firstIdx]
  have e3 := remove_edge_eq_of_swaps hsw5 hsw6
  have hCc : adjacent (remove_edge B b c).1 c = [] := by
    rw [e3]
    show adjacent (setAdj (setAdj B b []) c []) c = []
    rw [adjacent_setAdj_self (by simpa using hcsB)]
  have hCb : adjacent (remove_edge B b c).1 b = [] := by
    rw [e3]
    show adjacent (setAdj (setAdj B b []) c []) b = []
    rw [adjacent_setAdj_ne (Ne.symm hcb), adjacent_setAdj_self hbsB]
  have hCd : adjacent (remove_edge B b c).1 d = [] := by
    rw [e3]
    show adjacent (setAdj (setAdj B b []) c []) d = []
    rw [adjacent_setAdj_ne (Ne.symm hcd), adjacent_setAdj_ne (Ne.symm hbd), hBd]
  have hCa : adjacent (remove_edge B b c).1 a = [] := by
    rw [e3]
    show adjacent (setAdj (setAdj B b []) c []) a = []
    rw [adjacent_setAdj_ne (Ne.symm hca), adjacent_setAdj_ne hab, hBa]
  have hCsize : node_size (remove_edge B b c).1 = node_size B :=
    node_size_remove_edge B b c
  have hCec : (remove_edge B b c).1.edge_count = B.edge_count - 1 := by
    rw [e3]
  set C := (remove_edge B b c).1 with hCdef
  have hbsC : b < node_size C := by rw [hCsize]; exact hbsB
  have hdsC : d < node_size C := by rw [hCsize, hBsize]; exact hdsA
  -- the collapsed state
  have hR4d : adjacent (add_edge C d b) d = [b] := by
    rw [adjacent_add_edge_fst (Ne.symm hbd) hdsC, hCd]
    rfl
  have hR4b : adjacent (add_edge C d b) b = [d] := by
    rw [adjacent_add_edge_snd (Ne.symm hbd) hbsC, hCb]
    rfl
  have hR4c : adjacent (add_edge C d b) c = [] := by
    rw [adjacent_add_edge_of_ne hcd hcb, hCc]
  have hR4a : adjacent (add_edge C d b) a = [] := by
    rw [adjacent_add_edge_of_ne had hab, hCa]
  -- contract_chain_node(c) on state A
  have hdegAc : degree A c = 2 := by
    show (adjacent A c).length = 2
    rw [hAc]
    rfl
  have hdegAd : degree A d = 1 := by
    show (adjacent A d).length = 1
    rw [hAd]
    rfl
  have hdegAb : degree A b = 1 := by
    show (adjacent A b).length = 1
    rw [hAb]
    rfl
  have hrootA : ¬ c = A.root := by
    rw [hAroot, hroot]
    exact hcN
  have hccn : contract_chain_node A c = (add_edge C d b, true) := by
    unfold contract_chain_node
    rw [hdegAc, if_neg (by omega : ¬(2 : Nat) ≠ 2), if_neg hrootA, hAc]
  -- the cascade from c on state A
  have hfilter : (adjacent A c).filter (fun i => degree A i == 2) = [] := by
    rw [hAc]
    simp [List.filter, hdegAd, hdegAb]
  have hsumA : 0 < sumDeg A := by
    have h2 := degree_le_sumDeg hcsA
    omega
  have hchain : contract_chain A c = (add_edge C d b, some true) := by
    unfold contract_chain
    simp only [contract_chain_loop]
    rw [hfilter]
    simp only [List.reverse_nil, List.nil_append]
    rw [hccn]
    exact contract_chain_loop_nil hsumA _
  -- assemble trim_leaf
  have hdegta : degree t a = 1 := by
    show (adjacent t a).length = 1
    rw [ha]
    rfl
  have htl : trim_leaf t a = (add_edge C d b, true) := by
    unfold trim_leaf
    rw [hdegta, if_neg (by omega : ¬(1 : Nat) ≠ 1), ha]
    dsimp only
    rw [← hAdef, hchain]
  -- the failed subsequent cascade
  have hdegR4c : degree (add_edge C d b) c = 0 := by
    show (adjacent (add_edge C d b) c).length = 0
    rw [hR4c]
    rfl
  have hccn2 : contract_chain_node (add_edge C d b) c = (add_edge C d b, false) := by
    unfold contract_chain_node
    rw [hdegR4c, if_pos (by omega : (0 : Nat) ≠ 2)]
  have hchain2 : contract_chain (add_edge C d b) c
      = (add_edge C d b, some false) := by
    unfold contract_chain
    simp only [contract_chain_loop]
    rw [hccn2]
  refine ⟨by rw [htl], ?_, ?_, ?_, ?_, ?_, ?_⟩
  · rw [htl]; exact hR4c
  · rw [htl]; exact hR4b
  · rw [htl]; exact hR4d
  · rw [htl]; exact hR4a
  · rw [htl]
    show (add_edge C d b).edge_count + 2 = t.edge_count
    have h4 : (add_edge C d b).edge_count = C.edge_count + 1 := rfl
    omega
  · rw [htl, hchain2]

theorem count_pair (l0 l1 x : Nat) :
    List.count x [l0, l1]
      = (if x = l0 then 1 else 0) + (if x = l1 then 1 else 0) := by
  simp only [List.count_cons, List.count_nil, beq_iff_eq]
  split_ifs <;> omega

/-! ### Claim C6 -/

/-- C6 counterexample: in the state with a single node 0 carrying a
self-loop (`adjacent(0) = [0,0]`, edge_count 1 — a state satisfying
reciprocity and the edge-count invariant), `contract_chain_node(0)` meets
the claim's success condition (`degree(0) = 2`, 0 is not the root) and
returns success, but the tree is left completely unchanged: the edge count
does not decrease and 0 is not isolated. -/
theorem c6_counterexample :
    degree ⟨[[0, 0]], NONODE, 1⟩ 0 = 2
    ∧ (0 : Nat) ≠ (⟨[[0, 0]], NONODE, 1⟩ : TreeT).root
    ∧ (contract_chain_node ⟨[[0, 0]], NONODE, 1⟩ 0).2 = true
    ∧ (contract_chain_node ⟨[[0, 0]], NONODE, 1⟩ 0).1
        = ⟨[[0, 0]], NONODE, 1⟩
    ∧ (contract_chain_node ⟨[[0, 0]], NONODE, 1⟩ 0).1.edge_count
        = (⟨[[0, 0]], NONODE, 1⟩ : TreeT).edge_count
    ∧ degree (contract_chain_node ⟨[[0, 0]], NONODE, 1⟩ 0).1 0 = 2 := by
  decide

/-- C6 (amended): on a state satisfying the reachable-state invariant in
which `v` is not its own neighbor (no self-loop at `v`),
`contract_chain_node(v)` returns success iff `degree(v) = 2` and `v` is not
the root; on success it removes both of `v`'s edges and adds a direct edge
between `v`'s two former neighbors, so the edge count decreases by exactly
one, the node count is unchanged and `v` ends isolated; on failure the tree
is unchanged (unconditionally). -/
theorem c6_amended_contract_chain_node (t : TreeT) (v : Nat)
    (hinv : Inv t) (hself : v ∉ adjacent t v) :
    ((contract_chain_node t v).2 = true ↔ degree t v = 2 ∧ v ≠ t.root)
    ∧ ((contract_chain_node t v).2 = false → (contract_chain_node t v).1 = t)
    ∧ ((contract_chain_node t v).2 = true →
        degree (contract_chain_node t v).1 v = 0
        ∧ node_size (contract_chain_node t v).1 = node_size t
        ∧ (contract_chain_node t v).1.edge_count + 1 = t.edge_count
        ∧ ∃ l0 l1, adjacent t v = [l0, l1]
            ∧ l1 ∈ adjacent (contract_chain_node t v).1 l0
            ∧ l0 ∈ adjacent (contract_chain_node t v).1 l1) := by
  by_cases hdeg : degree t v = 2
  · by_cases hroot : v = t.root
    · have hres : contract_chain_node t v = (t, false) := by
        unfold contract_chain_node
        rw [if_neg (fun hc => hc hdeg), if_pos hroot]
      rw [hres]
      refine ⟨?_, fun _ => rfl, ?_⟩
      · simp [hroot]
      · intro hc
        exact absurd hc (by simp)
    · -- the success branch
      have hlen : (adjacent t v).length = 2 := hdeg
      cases hadj : adjacent t v with
      | nil => rw [hadj] at hlen; simp at hlen
      | cons l0 rest1 =>
        cases rest1 with
        | nil => rw [hadj] at hlen; simp at hlen
        | cons l1 rest2 =>
          have hrest2 : rest2 = [] := by
            rw [hadj] at hlen
            simp at hlen
            exact hlen
          subst hrest2
          rw [hadj] at hself
          have hl0v : l0 ≠ v := by
            intro hc
            exact hself (by rw [hc]; exact List.mem_cons_self _ _)
          have hl1v : l1 ≠ v := by
            intro hc
            exact hself
              (by rw [hc]; exact List.mem_cons_of_mem _ (List.mem_cons_self _ _))
          have hmem0 : l0 ∈ adjacent t v := by
            rw [hadj]; exact List.mem_cons_self _ _
          have hmem1 : l1 ∈ adjacent t v := by
            rw [hadj]; exact List.mem_cons_of_mem _ (List.mem_cons_self _ _)
          have hl0s : l0 < node_size t := hinv.2.1 v l0 hmem0
          have hl1s : l1 < node_size t := hinv.2.1 v l1 hmem1
          have hmemA : v ∈ adjacent t l0 := by
            rw [mem_iff_cnt_pos, ← hinv.1 l0 v]
            have h0 : cnt t v l0
                = (if l0 = l0 then 1 else 0) + (if l0 = l1 then 1 else 0) := by
              unfold cnt
              rw [hadj]
              exact count_pair _ _ _
            rw [h0]
            split_ifs <;> omega
          obtain ⟨hb1, hcnt1, hsz1, hroot1, hec1, hsum1⟩ :=
            remove_edge_succ_spec hinv.1 hinv.2.2.1 hmemA
          have hinv1 : Inv (remove_edge t l0 v).1 := Inv_remove_edge l0 v hinv
          have hmemB : v ∈ adjacent (remove_edge t l0 v).1 l1 := by
            have h1 := hcnt1 l1 v
            rw [if_neg (fun hc : l1 = v ∧ v = l0 => hl1v hc.1)] at h1
            have h4 : cnt t l1 v = cnt t v l1 := hinv.1 v l1
            have h3 : cnt t v l1
                = (if l1 = l0 then 1 else 0) + (if l1 = l1 then 1 else 0) := by
              unfold cnt
              rw [hadj]
              exact count_pair _ _ _
            rw [if_pos rfl] at h3
            rw [mem_iff_cnt_pos]
            by_cases hl : l1 = l0
            · rw [if_pos (And.intro hl rfl)] at h1
              rw [if_pos hl] at h3
              omega
            · rw [if_neg (fun hc : l1 = l0 ∧ v = v => hl hc.1)] at h1
              rw [if_neg hl] at h3
              omega
          obtain ⟨hb2, hcnt2, hsz2, hroot2, hec2, hsum2⟩ :=
            remove_edge_succ_spec hinv1.1 hinv1.2.2.1 hmemB
          have hinv2 : Inv (remove_edge (remove_edge t l0 v).1 l1 v).1 :=
            Inv_remove_edge l1 v hinv1
          have hres : contract_chain_node t v
              = (add_edge (remove_edge (remove_edge t l0 v).1 l1 v).1 l0 l1,
                  true) := by
            unfold contract_chain_node
            rw [if_neg (fun hc => hc hdeg), if_neg hroot, hadj]
          have hvl0 : v ≠ l0 := fun hc => hl0v hc.symm
          have hvl1 : v ≠ l1 := fun hc => hl1v hc.symm
          have hempty : adjacent (remove_edge (remove_edge t l0 v).1 l1 v).1 v
              = [] := by
            rw [List.eq_nil_iff_forall_not_mem]
            intro x hx
            rw [mem_iff_cnt_pos] at hx
            have h1 := hcnt1 v x
            have h2 := hcnt2 v x
            have h3 : cnt t v x
                = (if x = l0 then 1 else 0) + (if x = l1 then 1 else 0) := by
              unfold cnt
              rw [hadj]
              exact count_pair _ _ _
            rw [if_neg (fun hc : v = l0 ∧ x = v => hvl0 hc.1)] at h1
            rw [if_neg (fun hc : v = l1 ∧ x = v => hvl1 hc.1)] at h2
            by_cases hx0 : x = l0
            · rw [if_pos (And.intro rfl hx0)] at h1
              by_cases hx1 : x = l1
              · rw [if_pos (And.intro rfl hx1)] at h2
                rw [if_pos hx0, if_pos hx1] at h3
                omega
              · rw [if_neg (fun hc : v = v ∧ x = l1 => hx1 hc.2)] at h2
                rw [if_pos hx0, if_neg hx1] at h3
                omega
            · rw [if_neg (fun hc : v = v ∧ x = l0 => hx0 hc.2)] at h1
              by_cases hx1 : x = l1
              · rw [if_pos (And.intro rfl hx1)] at h2
                rw [if_neg hx0, if_pos hx1] at h3
                omega
              · rw [if_neg (fun hc : v = v ∧ x = l1 => hx1 hc.2)] at h2
                rw [if_neg hx0, if_neg hx1] at h3
                omega
          have hl0s2 : l0 < node_size (remove_edge (remove_edge t l0 v).1 l1 v).1 := by
            rw [hsz2, hsz1]
            exact hl0s
          have hl1s2 : l1 < node_size (remove_edge (remove_edge t l0 v).1 l1 v).1 := by
            rw [hsz2, hsz1]
            exact hl1s
          refine ⟨by rw [hres]; simp [hdeg, hroot], ?_, ?_⟩
          · intro hc
            rw [hres] at hc
            exact absurd hc (by simp)
          · intro _
            rw [hres]
            refine ⟨?_, ?_, ?_, l0, l1, rfl, ?_, ?_⟩
            · show (adjacent (add_edge _ l0 l1) v).length = 0
              rw [adjacent_add_edge_of_ne hvl0 hvl1, hempty]
              rfl
            · rw [node_size_add_edge, hsz2, hsz1]
            · show (remove_edge (remove_edge t l0 v).1 l1 v).1.edge_count + 1 + 1
                  = t.edge_count
              have hecnt : 2 * t.edge_count = sumDeg t := hinv.2.2.2.1
              have hecnt1 : 2 * (remove_edge t l0 v).1.edge_count
                  = sumDeg (remove_edge t l0 v).1 := hinv1.2.2.2.1
              have hecnt2 : 2 * (remove_edge (remove_edge t l0 v).1 l1 v).1.edge_count
                  = sumDeg (remove_edge (remove_edge t l0 v).1 l1 v).1 :=
                hinv2.2.2.2.1
              omega
            · rw [mem_iff_cnt_pos, cnt_add_edge hl0s2 hl1s2]
              rw [if_pos (And.intro rfl rfl)]
              omega
            · rw [mem_iff_cnt_pos, cnt_add_edge hl0s2 hl1s2]
              rw [if_pos (And.intro rfl rfl)]
              omega
  · have hres : contract_chain_node t v = (t, false) := by
      unfold contract_chain_node
      rw [if_pos hdeg]
    rw [hres]
    refine ⟨?_, fun _ => rfl, ?_⟩
    · simp [hdeg]
    · intro hc
      exact absurd hc (by simp)

/-- Witness for C6 (amended): the path `1 - 0 - 2` (node 0 of degree 2),
whose contraction yields the direct edge `(1,2)`. -/
theorem c6_amended_contract_chain_node_witness :
    (Inv ⟨[[1, 2], [0], [0]], NONODE, 2⟩
      ∧ 0 ∉ adjacent ⟨[[1, 2], [0], [0]], NONODE, 2⟩ 0)
    ∧ ((contract_chain_node ⟨[[1, 2], [0], [0]], NONODE, 2⟩ 0).2 = true
        ↔ degree ⟨[[1, 2], [0], [0]], NONODE, 2⟩ 0 = 2
          ∧ (0 : Nat) ≠ (⟨[[1, 2], [0], [0]], NONODE, 2⟩ : TreeT).root)
    ∧ ((contract_chain_node ⟨[[1, 2], [0], [0]], NONODE, 2⟩ 0).2 = true →
        degree (contract_chain_node ⟨[[1, 2], [0], [0]], NONODE, 2⟩ 0).1 0 = 0
        ∧ (contract_chain_node ⟨[[1, 2], [0], [0]], NONODE, 2⟩ 0).1.edge_count
            + 1 = (⟨[[1, 2], [0], [0]], NONODE, 2⟩ : TreeT).edge_count) := by
  have hinv : Inv ⟨[[1, 2], [0], [0]], NONODE, 2⟩ := by
    refine ⟨?_, ?_, ?_, by unfold EdgeCnt; rfl, Or.inl rfl⟩
    · intro u v
      unfold cnt adjacent
      match u, v with
      | 0, 0 => rfl
      | 0, 1 => rfl
      | 0, 2 => rfl
      | 1, 0 => rfl
      | 1, 1 => rfl
      | 1, 2 => rfl
      | 2, 0 => rfl
      | 2, 1 => rfl
      | 2, 2 => rfl
      | u+3, 0 => simp [List.getD]
      | u+3, 1 => simp [List.getD]
      | u+3, 2 => simp [List.getD]
      | 0, v+3 => simp [List.getD]
      | 1, v+3 => simp [List.getD]
      | 2, v+3 => simp [List.getD]
      | u+3, v+3 => simp [List.getD]
    · intro v u hu
      show u < 3
      match v with
      | 0 => simp [adjacent, List.getD] at hu; omega
      | 1 => simp [adjacent, List.getD] at hu; omega
      | 2 => simp [adjacent, List.getD] at hu; omega
      | v+3 => simp [adjacent, List.getD] at hu
    · intro v
      match v with
      | 0 => rfl
      | 1 => rfl
      | 2 => rfl
      | v+3 => simp [cnt, adjacent, List.getD]
  have h := c6_amended_contract_chain_node ⟨[[1, 2], [0], [0]], NONODE, 2⟩ 0
    hinv (by decide)
  exact ⟨⟨hinv, by decide⟩, h.1, fun hc => ⟨(h.2.2 hc).1, (h.2.2 hc).2.2.1⟩⟩

/-! ### Claim C4 -/

/-- C4: for every tree whose node ids split into two groups with no edge
between them, where `g` is the group indicator, node 0 lies in the true
group, `m2` is the minimum id of the false group, and every node other than
the two group minima has an ascending-id in-edge (the ascending-id adjacency
the algorithm assumes: each group is spanned from its minimum by edges whose
lower-id endpoint stores the higher-id endpoint), `components()` returns 2.
The algorithm marks node 0, then marks every neighbor with a strictly larger
id than the node storing it, and returns one plus the number of unmarked
ids; adjacency closure is assumed since an out-of-range neighbor id would
index the `visited` bitset out of bounds in the source. -/
theorem c4_components_two (t : TreeT) (g : Nat → Bool) (m2 : Nat)
    (hg0 : g 0 = true)
    (hclosed : ∀ v, v < node_size t → ∀ u ∈ adjacent t v, u < node_size t)
    (hcross : ∀ v, v < node_size t → ∀ u ∈ adjacent t v, g u = g v)
    (hm2N : m2 < node_size t) (hgm2 : g m2 = false)
    (hm2min : ∀ v, v < m2 → g v = true)
    (hspan : ∀ j, j < node_size t → j ≠ 0 → j ≠ m2 →
      ∃ v, v < j ∧ j ∈ adjacent t v) :
    components t = 2 := by
  have hmarked : ∀ i, i < node_size t → i ≠ m2 → visitedBit t i = true := by
    intro i hiN him2
    by_cases hi0 : i = 0
    · unfold visitedBit
      rw [hi0]
      simp
    · obtain ⟨v, hvlt, hvadj⟩ := hspan i hiN hi0 him2
      have hvN : v < node_size t := by
        by_contra hcon
        rw [adjacent_of_le (Nat.le_of_not_lt hcon)] at hvadj
        exact absurd hvadj (List.not_mem_nil i)
      unfold visitedBit
      rw [Bool.or_eq_true]
      right
      rw [List.any_eq_true]
      refine ⟨v, List.mem_range.2 hvN, ?_⟩
      rw [List.any_eq_true]
      exact ⟨i, hvadj, by simp [hvlt]⟩
  have hunmarked : visitedBit t m2 = false := by
    rw [Bool.eq_false_iff]
    intro hvb
    unfold visitedBit at hvb
    rw [Bool.or_eq_true] at hvb
    rcases hvb with h1 | h1
    · have hm20 : m2 = 0 := by simpa using h1
      rw [hm20, hg0] at hgm2
      exact Bool.noConfusion hgm2
    · rw [List.any_eq_true] at h1
      obtain ⟨v, hvr, hin⟩ := h1
      rw [List.any_eq_true] at hin
      obtain ⟨j, hjadj, hcond⟩ := hin
      rw [Bool.and_eq_true] at hcond
      have hj : j = m2 := by simpa using hcond.1
      have hvlt : v < m2 := by
        have h2 : v < j := by simpa using hcond.2
        omega
      rw [hj] at hjadj
      have hgv : g v = true := hm2min v hvlt
      have h3 := hcross v (List.mem_range.1 hvr) m2 hjadj
      rw [hgm2, hgv] at h3
      exact Bool.noConfusion h3
  have hfilter : (List.range (node_size t)).filter (fun i => !visitedBit t i)
      = (List.range (node_size t)).filter (fun i => i == m2) := by
    apply List.filter_congr
    intro i hi
    rw [List.mem_range] at hi
    by_cases him : i = m2
    · rw [him, hunmarked]
      simp
    · rw [hmarked i hi him]
      simp [him]
  unfold components
  rw [hfilter]
  have hlen : ((List.range (node_size t)).filter (fun i => i == m2)).length
      = 1 := by
    have hcnt : (List.range (node_size t)).count m2 = 1 :=
      List.count_eq_one_of_mem (List.nodup_range _) (List.mem_range.2 hm2N)
    rw [← hcnt]
    rw [List.count, List.countP_eq_length_filter]
  rw [hlen]

/-- Witness for C4: two two-node components `{0,1}` and `{2,3}` with
ascending-id adjacency. -/
theorem c4_components_two_witness :
    ((fun i => decide (i < 2)) 0 = true
      ∧ (2 : Nat) < node_size ⟨[[1], [0], [3], [2]], NONODE, 2⟩
      ∧ (fun i => decide (i < 2)) 2 = false)
    ∧ components ⟨[[1], [0], [3], [2]], NONODE, 2⟩ = 2 := by
  refine ⟨⟨by decide, by decide, by decide⟩, ?_⟩
  exact c4_components_two ⟨[[1], [0], [3], [2]], NONODE, 2⟩
    (fun i => decide (i < 2)) 2 (by decide) (by decide) (by decide)
    (by decide) (by decide) (by decide) (by decide)

/-- Witness for C3 (amended) at the canonical star (center 0, leaves
1, 2, 3). -/
theorem c3_amended_star_trim_witness :
    (trim_leaf ⟨[[1, 2, 3], [0], [0], [0]], NONODE, 3⟩ 1).2 = true
    ∧ adjacent (trim_leaf ⟨[[1, 2, 3], [0], [0], [0]], NONODE, 3⟩ 1).1 0 = []
    ∧ adjacent (trim_leaf ⟨[[1, 2, 3], [0], [0], [0]], NONODE, 3⟩ 1).1 2 = [3]
    ∧ adjacent (trim_leaf ⟨[[1, 2, 3], [0], [0], [0]], NONODE, 3⟩ 1).1 3 = [2]
    ∧ adjacent (trim_leaf ⟨[[1, 2, 3], [0], [0], [0]], NONODE, 3⟩ 1).1 1 = []
    ∧ (trim_leaf ⟨[[1, 2, 3], [0], [0], [0]], NONODE, 3⟩ 1).1.edge_count + 2
        = (⟨[[1, 2, 3], [0], [0], [0]], NONODE, 3⟩ : TreeT).edge_count
    ∧ contract_chain (trim_leaf ⟨[[1, 2, 3], [0], [0], [0]], NONODE, 3⟩ 1).1 0
        = ((trim_leaf ⟨[[1, 2, 3], [0], [0], [0]], NONODE, 3⟩ 1).1,
            some false) :=
  c3_amended_star_trim ⟨[[1, 2, 3], [0], [0], [0]], NONODE, 3⟩ 0 1 2 3
    (by decide) (by decide) (by decide) (by decide) (by decide) (by decide)
    (by decide) (by decide) (by decide) (by decide) (by decide) (by decide)
    (by decide)

/-! ### Claim C2 -/

theorem count_filter_ne (l : List Nat) (e z : Nat) (hz : z ≠ e) :
    (l.filter (fun u => u != e)).count z = l.count z := by
  induction l with
  | nil => rfl
  | cons a rest ih =>
    by_cases hae : a = e
    · rw [List.filter_cons_of_neg (by simp [hae])]
      rw [ih, List.count_cons]
      have hne : ¬(a == z) = true := by
        simp [hae]
        exact Ne.symm hz
      rw [if_neg hne]
      omega
    · rw [List.filter_cons_of_pos (by simp [hae])]
      rw [List.count_cons, List.count_cons, ih]

theorem remove_edges_loop_cnt {c : Nat} :
    ∀ (ch : List Nat) (t : TreeT), Inv t →
      (remove_edges_loop t c ch).2 = true →
      ∀ w x, cnt (remove_edges_loop t c ch).1 w x
          + ((if w = c then ch.count x else 0)
              + (if x = c then ch.count w else 0))
        = cnt t w x := by
  intro ch
  induction ch with
  | nil =>
    intro t _ _ w x
    simp [remove_edges_loop, List.count_nil]
  | cons i rest ih =>
    intro t hinv hsucc w x
    cases hp : remove_edge t c i with
    | mk t1 b =>
      unfold remove_edges_loop at hsucc ⊢
      rw [hp] at hsucc ⊢
      cases b with
      | false => simp at hsucc
      | true =>
        dsimp only at hsucc ⊢
        have hmem : i ∈ adjacent t c := by
          by_cases hm : i ∈ adjacent t c
          · exact hm
          · exfalso
            rw [remove_edge_fail_of_not_mem hm] at hp
            simp at hp
        have hd := (remove_edge_succ_spec hinv.1 hinv.2.2.1 hmem).2.1 w x
        rw [hp] at hd
        dsimp only at hd
        have hinv1 : Inv t1 := by
          have h := Inv_remove_edge c i hinv
          rw [hp] at h
          exact h
        have hih := ih t1 hinv1 hsucc w x
        simp only [List.count_cons, beq_iff_eq]
        split_ifs at hd hih ⊢ <;> omega

theorem adjacent_add_edges_loop_of_ne :
    ∀ (l : List Nat) (t : TreeT) (n w : Nat), w ≠ n → w ∉ l →
      adjacent (add_edges_loop t n l) w = adjacent t w := by
  intro l
  induction l with
  | nil => intro t n w _ _; rfl
  | cons i rest ih =>
    intro t n w hwn hwl
    have hwi : w ≠ i := fun hc => hwl (hc ▸ List.mem_cons_self i rest)
    show adjacent (add_edges_loop (add_edge t n i) n rest) w = adjacent t w
    rw [ih _ _ _ hwn (fun hc => hwl (List.mem_cons_of_mem _ hc)),
      adjacent_add_edge_of_ne hwn hwi]

theorem mem_adjacent_add_edge_fst {t : TreeT} {v u : Nat}
    (hv : v < node_size t) : u ∈ adjacent (add_edge t v u) v := by
  by_cases hvu : v = u
  · subst hvu
    rw [adjacent_add_edge_diag hv]
    simp
  · rw [adjacent_add_edge_fst hvu hv]
    simp

theorem mem_adjacent_add_edge_snd {t : TreeT} {v u : Nat}
    (hu : u < node_size t) : v ∈ adjacent (add_edge t v u) u := by
  by_cases hvu : v = u
  · subst hvu
    rw [adjacent_add_edge_diag hu]
    simp
  · rw [adjacent_add_edge_snd hvu hu]
    simp

theorem mem_adjacent_add_edge_mono {t : TreeT} {v u w x : Nat}
    (h : x ∈ adjacent t w) : x ∈ adjacent (add_edge t v u) w := by
  have hw : w < node_size t := mem_lt_of_mem_adjacent h
  by_cases hwv : w = v
  · subst hwv
    by_cases hwu : w = u
    · subst hwu
      rw [adjacent_add_edge_diag hw]
      exact List.mem_append_left _ h
    · rw [adjacent_add_edge_fst hwu hw]
      exact List.mem_append_left _ h
  · by_cases hwu : w = u
    · subst hwu
      rw [adjacent_add_edge_snd (Ne.symm hwv) hw]
      exact List.mem_append_left _ h
    · rw [adjacent_add_edge_of_ne hwv hwu]
      exact h

theorem mem_adjacent_add_edges_loop_mono :
    ∀ (l : List Nat) (t : TreeT) (n w x : Nat),
      x ∈ adjacent t w → x ∈ adjacent (add_edges_loop t n l) w := by
  intro l
  induction l with
  | nil => intro t n w x h; exact h
  | cons i rest ih =>
    intro t n w x h
    exact ih _ _ _ _ (mem_adjacent_add_edge_mono h)

theorem mem_add_edges_loop :
    ∀ (l : List Nat) (t : TreeT) (n : Nat), n < node_size t →
      (∀ i ∈ l, i < node_size t) →
      ∀ j ∈ l, j ∈ adjacent (add_edges_loop t n l) n
        ∧ n ∈ adjacent (add_edges_loop t n l) j := by
  intro l
  induction l with
  | nil => intro t n _ _ j hj; cases hj
  | cons i rest ih =>
    intro t n hn hl j hj
    show j ∈ adjacent (add_edges_loop (add_edge t n i) n rest) n
      ∧ n ∈ adjacent (add_edges_loop (add_edge t n i) n rest) j
    cases hj with
    | head =>
      constructor
      · exact mem_adjacent_add_edges_loop_mono _ _ _ _ _
          (mem_adjacent_add_edge_fst hn)
      · exact mem_adjacent_add_edges_loop_mono _ _ _ _ _
          (mem_adjacent_add_edge_snd (hl i (List.mem_cons_self _ _)))
    | tail _ hj2 =>
      have hn2 : n < node_size (add_edge t n i) := by
        rw [node_size_add_edge]
        exact hn
      have hl2 : ∀ i2 ∈ rest, i2 < node_size (add_edge t n i) := by
        intro i2 hi2
        rw [node_size_add_edge]
        exact hl i2 (List.mem_cons_of_mem _ hi2)
      exact ih _ _ hn2 hl2 j hj2

theorem sprPruneCh_spec (t : TreeT) (center excluded : Nat) (ch : List Nat)
    (hinv : Inv t)
    (hchsub : ∀ i ∈ ch, i ∈ adjacent t center)
    (hccount : ∀ z, z ≠ excluded → ch.count z = cnt t center z)
    (hself : center ∉ adjacent t center)
    (hsucc : (sprPruneCh t center ch).2 = true) :
    (∀ z, z ≠ excluded → z ∉ adjacent (sprPruneCh t center ch).1 center)
    ∧ (ch.length = 2 →
        node_size (sprPruneCh t center ch).1 = node_size t
        ∧ ch.getD 1 0 ∈ adjacent (sprPruneCh t center ch).1 (ch.getD 0 0)
        ∧ ch.getD 0 0 ∈ adjacent (sprPruneCh t center ch).1 (ch.getD 1 0))
    ∧ (2 < ch.length →
        node_size (sprPruneCh t center ch).1 = node_size t + 1
        ∧ ∀ j ∈ ch, j ∈ adjacent (sprPruneCh t center ch).1 (node_size t)
            ∧ node_size t ∈ adjacent (sprPruneCh t center ch).1 j)
    ∧ (ch.length ≤ 1 →
        (sprPruneCh t center ch).1 = (remove_edges_loop t center ch).1) := by
  have hcin : center ∉ ch := fun hc => hself (hchsub _ hc)
  have hchlt : ∀ i ∈ ch, i < node_size t :=
    fun i hi => hinv.2.1 center i (hchsub i hi)
  have hc0 : cnt t center center = 0 := by
    by_contra h
    exact hself (mem_iff_cnt_pos.2 (Nat.pos_of_ne_zero h))
  cases hp : remove_edges_loop t center ch with
  | mk t1 b =>
    cases b with
    | false =>
      exfalso
      have h : (sprPruneCh t center ch).2 = false := by
        unfold sprPruneCh
        rw [hp]
      rw [h] at hsucc
      exact Bool.noConfusion hsucc
    | true =>
      have hflag : (remove_edges_loop t center ch).2 = true := by rw [hp]
      have hcnt := remove_edges_loop_cnt ch t hinv hflag
      rw [hp] at hcnt
      dsimp only at hcnt
      have hsz1 : node_size t1 = node_size t := by
        have h := node_size_remove_edges_loop ch t center
        rw [hp] at h
        exact h
      have hc1 : ∀ z, z ≠ excluded → cnt t1 center z = 0 := by
        intro z hz
        have h1 := hcnt center z
        rw [if_pos rfl] at h1
        have h2 := hccount z hz
        by_cases hzc : z = center
        · rw [if_pos hzc] at h1
          rw [hzc] at h1 h2 ⊢
          omega
        · rw [if_neg hzc] at h1
          omega
      have hres : sprPruneCh t center ch
          = if ch.length = 2 then
              (add_edge t1 (ch.getD 0 0) (ch.getD 1 0), true)
            else if ch.length > 2 then
              (add_edges_loop (new_node t1).1 (new_node t1).2 ch, true)
            else (t1, true) := by
        unfold sprPruneCh
        rw [hp]
      refine ⟨?_, ?_, ?_, ?_⟩
      · intro z hz
        rw [hres]
        by_cases h2 : ch.length = 2
        · rw [if_pos h2]
          have hch0 : ch.getD 0 0 ∈ ch := by
            cases hc : ch with
            | nil => rw [hc] at h2; simp at h2
            | cons a l => exact List.mem_cons_self _ _
          have hch1 : ch.getD 1 0 ∈ ch := by
            cases hc : ch with
            | nil => rw [hc] at h2; simp at h2
            | cons a l =>
              cases hl : l with
              | nil => rw [hc, hl] at h2; simp at h2
              | cons a2 l2 =>
                simp only [List.getD_cons_succ, List.getD_cons_zero]
                exact List.mem_cons_of_mem _ (List.mem_cons_self _ _)
          have hne0 : center ≠ ch.getD 0 0 := fun hcx => hcin (hcx ▸ hch0)
          have hne1 : center ≠ ch.getD 1 0 := fun hcx => hcin (hcx ▸ hch1)
          show z ∉ adjacent (add_edge t1 (ch.getD 0 0) (ch.getD 1 0)) center
          rw [adjacent_add_edge_of_ne hne0 hne1, mem_iff_cnt_pos, hc1 z hz]
          omega
        · rw [if_neg h2]
          by_cases h3 : ch.length > 2
          · rw [if_pos h3]
            have hcentlt : center < node_size t := by
              cases hc : ch with
              | nil => rw [hc] at h3; simp at h3
              | cons a l =>
                exact mem_lt_of_mem_adjacent
                  (hchsub a (hc ▸ List.mem_cons_self a l))
            have hnen : center ≠ (new_node t1).2 := by
              have h4 : (new_node t1).2 = node_size t1 := rfl
              rw [h4, hsz1]
              omega
            show z ∉
              adjacent (add_edges_loop (new_node t1).1 (new_node t1).2 ch)
                center
            rw [adjacent_add_edges_loop_of_ne _ _ _ _ hnen hcin,
              adjacent_new_node, mem_iff_cnt_pos, hc1 z hz]
            omega
          · rw [if_neg h3]
            show z ∉ adjacent t1 center
            rw [mem_iff_cnt_pos, hc1 z hz]
            omega
      · intro h2
        rw [hres, if_pos h2]
        obtain ⟨c0, c1, hc⟩ : ∃ c0 c1, ch = [c0, c1] := by
          cases ch with
          | nil => simp at h2
          | cons a l =>
            cases l with
            | nil => simp at h2
            | cons b2 l2 =>
              cases l2 with
              | nil => exact ⟨a, b2, rfl⟩
              | cons c2 l3 => simp at h2
        have hc0m : c0 ∈ ch := by rw [hc]; exact List.mem_cons_self _ _
        have hc1m : c1 ∈ ch := by
          rw [hc]
          exact List.mem_cons_of_mem _ (List.mem_cons_self _ _)
        rw [hc]
        simp only [List.getD_cons_zero, List.getD_cons_succ]
        refine ⟨?_, ?_, ?_⟩
        · show node_size (add_edge t1 c0 c1) = node_size t
          rw [node_size_add_edge]
          exact hsz1
        · exact mem_adjacent_add_edge_fst (by rw [hsz1]; exact hchlt _ hc0m)
        · exact mem_adjacent_add_edge_snd (by rw [hsz1]; exact hchlt _ hc1m)
      · intro h3
        rw [hres, if_neg (by omega : ¬ch.length = 2), if_pos h3]
        constructor
        · show node_size
              (add_edges_loop (new_node t1).1 (new_node t1).2 ch)
            = node_size t + 1
          rw [node_size_add_edges_loop, node_size_new_node, hsz1]
        · intro j hj
          have hn2 : (new_node t1).2 = node_size t := by
            show node_size t1 = node_size t
            exact hsz1
          have hnlt : (new_node t1).2 < node_size (new_node t1).1 := by
            rw [node_size_new_node]
            show node_size t1 < node_size t1 + 1
            omega
          have hjlt : ∀ i ∈ ch, i < node_size (new_node t1).1 := by
            intro i hi
            rw [node_size_new_node, hsz1]
            exact Nat.lt_succ_of_lt (hchlt i hi)
          rw [← hn2]
          exact mem_add_edges_loop ch (new_node t1).1 (new_node t1).2
            hnlt hjlt j hj
      · intro h4
        rw [hres, if_neg (by omega : ¬ch.length = 2),
          if_neg (by omega : ¬ch.length > 2)]

theorem Inv_star4 : Inv ⟨[[1, 2, 3], [0], [0], [0]], NONODE, 3⟩ := by
  refine ⟨?_, ?_, ?_, by unfold EdgeCnt; rfl, Or.inl rfl⟩
  · intro u v
    unfold cnt adjacent
    match u, v with
    | 0, 0 => rfl
    | 0, 1 => rfl
    | 0, 2 => rfl
    | 0, 3 => rfl
    | 1, 0 => rfl
    | 1, 1 => rfl
    | 1, 2 => rfl
    | 1, 3 => rfl
    | 2, 0 => rfl
    | 2, 1 => rfl
    | 2, 2 => rfl
    | 2, 3 => rfl
    | 3, 0 => rfl
    | 3, 1 => rfl
    | 3, 2 => rfl
    | 3, 3 => rfl
    | u+4, 0 => simp [List.getD]
    | u+4, 1 => simp [List.getD]
    | u+4, 2 => simp [List.getD]
    | u+4, 3 => simp [List.getD]
    | 0, v+4 => simp [List.getD]
    | 1, v+4 => simp [List.getD]
    | 2, v+4 => simp [List.getD]
    | 3, v+4 => simp [List.getD]
    | u+4, v+4 => simp [List.getD]
  · intro v u hu
    show u < 4
    match v with
    | 0 => simp [adjacent, List.getD] at hu; omega
    | 1 => simp [adjacent, List.getD] at hu; omega
    | 2 => simp [adjacent, List.getD] at hu; omega
    | 3 => simp [adjacent, List.getD] at hu; omega
    | v+4 => simp [adjacent, List.getD] at hu
  · intro v
    match v with
    | 0 => rfl
    | 1 => rfl
    | 2 => rfl
    | 3 => rfl
    | v+4 => simp [cnt, adjacent, List.getD]

/-- C2 counterexample: in the tree `⟨[[1,2,3],[0],[0],[0,4],[3]], NONODE, 4⟩`
(node 0 adjacent to 1, 2, 3 and node 3 adjacent to 0, 4), the call
`spr(1, 0, 3, 4)` prunes at `pn = 0` with two remaining neighbors besides
`n = 1` (`ch = [2,3]`, so "more than one remains" in the claim's sense): the
claim asserts `pn` is preserved in place as the branch point joining those
neighbors, but the code treats this case as the degree-2 collapse — the call
succeeds and `2` is no longer a neighbor of `0`, while `2` and `3` have been
joined to each other directly. -/
theorem c2_counterexample :
    1 < (children_vector ⟨[[1, 2, 3], [0], [0], [0, 4], [3]], NONODE, 4⟩
          0 1).length
    ∧ (spr ⟨[[1, 2, 3], [0], [0], [0, 4], [3]], NONODE, 4⟩ 1 0 3 4).2 = true
    ∧ 2 ∉ adjacent
        (spr ⟨[[1, 2, 3], [0], [0], [0, 4], [3]], NONODE, 4⟩ 1 0 3 4).1 0
    ∧ 3 ∈ adjacent
        (spr ⟨[[1, 2, 3], [0], [0], [0, 4], [3]], NONODE, 4⟩ 1 0 3 4).1 2
    ∧ 2 ∈ adjacent
        (spr ⟨[[1, 2, 3], [0], [0], [0, 4], [3]], NONODE, 4⟩ 1 0 3 4).1 3 := by
  decide

/-- C2 (amended): in the shared prune step of `spr`, `spr_to_root` and
`reroot` (applied to center `pn` with the subtree root `n` excluded, on an
invariant state without a self-loop at `pn`), whenever the step succeeds:
every neighbor of `pn` other than `n` has been disconnected from `pn`; when
exactly **two** remain besides `n`, those two are joined directly by a new
edge and no node is created (`pn` is spliced out); when **more than two**
remain, a **fresh node** (not `pn`) is created and joined to each of them;
when at most one remains, nothing happens beyond the edge removals. -/
theorem c2_amended_prune (t : TreeT) (center excluded : Nat)
    (hinv : Inv t) (hself : center ∉ adjacent t center)
    (hsucc : (sprPrune t center excluded).2 = true) :
    (∀ z, z ≠ excluded → z ∉ adjacent (sprPrune t center excluded).1 center)
    ∧ ((children_vector t center excluded).length = 2 →
        node_size (sprPrune t center excluded).1 = node_size t
        ∧ (children_vector t center excluded).getD 1 0
            ∈ adjacent (sprPrune t center excluded).1
                ((children_vector t center excluded).getD 0 0)
        ∧ (children_vector t center excluded).getD 0 0
            ∈ adjacent (sprPrune t center excluded).1
                ((children_vector t center excluded).getD 1 0))
    ∧ (2 < (children_vector t center excluded).length →
        node_size (sprPrune t center excluded).1 = node_size t + 1
        ∧ ∀ j ∈ children_vector t center excluded,
            j ∈ adjacent (sprPrune t center excluded).1 (node_size t)
            ∧ node_size t ∈ adjacent (sprPrune t center excluded).1 j)
    ∧ ((children_vector t center excluded).length ≤ 1 →
        (sprPrune t center excluded).1
          = (remove_edges_loop t center
              (children_vector t center excluded)).1) := by
  exact sprPruneCh_spec t center excluded
    (children_vector t center excluded) hinv
    (fun i hi => (List.mem_filter.1 hi).1)
    (fun z hz => by
      show ((adjacent t center).filter (fun u => u != excluded)).count z
          = (adjacent t center).count z
      exact count_filter_ne _ _ _ hz)
    hself hsucc

/-- Witness for C2 (amended) at the star with center 0 and leaves 1, 2, 3,
pruning at center 0 with node 1 excluded (two remaining neighbors: the
splice case). -/
theorem c2_amended_prune_witness :
    (Inv ⟨[[1, 2, 3], [0], [0], [0]], NONODE, 3⟩
      ∧ 0 ∉ adjacent ⟨[[1, 2, 3], [0], [0], [0]], NONODE, 3⟩ 0
      ∧ (sprPrune ⟨[[1, 2, 3], [0], [0], [0]], NONODE, 3⟩ 0 1).2 = true)
    ∧ 2 ∉ adjacent (sprPrune ⟨[[1, 2, 3], [0], [0], [0]], NONODE, 3⟩ 0 1).1 0
    ∧ node_size (sprPrune ⟨[[1, 2, 3], [0], [0], [0]], NONODE, 3⟩ 0 1).1
        = node_size ⟨[[1, 2, 3], [0], [0], [0]], NONODE, 3⟩ := by
  have hinv : Inv ⟨[[1, 2, 3], [0], [0], [0]], NONODE, 3⟩ := Inv_star4
  have hself : (0 : Nat) ∉ adjacent ⟨[[1, 2, 3], [0], [0], [0]], NONODE, 3⟩ 0 :=
    by decide
  have hsucc : (sprPrune ⟨[[1, 2, 3], [0], [0], [0]], NONODE, 3⟩ 0 1).2 = true :=
    by decide
  have h := c2_amended_prune ⟨[[1, 2, 3], [0], [0], [0]], NONODE, 3⟩ 0 1
    hinv hself hsucc
  exact ⟨⟨hinv, hself, hsucc⟩, h.1 2 (by decide), (h.2.1 (by decide)).1⟩

/-! ### Claim C5 -/

theorem trim_leaf_fail_eq {t : TreeT} {v : Nat}
    (hf : (trim_leaf t v).2 = false) : (trim_leaf t v).1 = t := by
  unfold trim_leaf at hf ⊢
  by_cases h1 : degree t v ≠ 1
  · rw [if_pos h1]
  · rw [if_neg h1] at hf ⊢
    cases hadj : adjacent t v with
    | nil => rfl
    | cons p rest =>
      rw [hadj] at hf
      simp at hf

theorem contract_all_chains_loop_fail_trace :
    ∀ (l : List Nat) (t : TreeT),
      (contract_all_chains_loop t l).2 = false →
      ∃ l1 w l2, l = l1 ++ w :: l2
        ∧ stepsAllSucceed contract_chain_node t l1 = true
        ∧ (contract_chain_node (foldSteps contract_chain_node t l1) w).2
            = false
        ∧ (contract_all_chains_loop t l).1
            = foldSteps contract_chain_node t l1 := by
  intro l
  induction l with
  | nil =>
    intro t hf
    simp [contract_all_chains_loop] at hf
  | cons i rest ih =>
    intro t hf
    cases hp : contract_chain_node t i with
    | mk t1 b =>
      unfold contract_all_chains_loop at hf ⊢
      rw [hp] at hf ⊢
      cases b with
      | false =>
        refine ⟨[], i, rest, rfl, rfl, ?_, ?_⟩
        · show (contract_chain_node t i).2 = false
          rw [hp]
        · show t1 = t
          have h := contract_chain_node_fail_eq
            (show (contract_chain_node t i).2 = false by rw [hp])
          rw [hp] at h
          exact h
      | true =>
        dsimp only at hf ⊢
        obtain ⟨l1, w, l2, hsplit, hall, hfail, hstate⟩ := ih t1 hf
        refine ⟨i :: l1, w, l2, by rw [hsplit]; rfl, ?_, ?_, ?_⟩
        · show ((contract_chain_node t i).2
              && stepsAllSucceed contract_chain_node
                  (contract_chain_node t i).1 l1) = true
          rw [hp]
          simpa using hall
        · show (contract_chain_node
              (foldSteps contract_chain_node
                (contract_chain_node t i).1 l1) w).2 = false
          rw [hp]
          exact hfail
        · show (contract_all_chains_loop t1 rest).1
              = foldSteps contract_chain_node (contract_chain_node t i).1 l1
          rw [hp]
          exact hstate

theorem trim_leaves_fail_trace :
    ∀ (l : List Nat) (t : TreeT),
      (trim_leaves t l).2 = false →
      ∃ l1 w l2, l = l1 ++ w :: l2
        ∧ stepsAllSucceed trim_leaf t l1 = true
        ∧ (trim_leaf (foldSteps trim_leaf t l1) w).2 = false
        ∧ (trim_leaves t l).1 = foldSteps trim_leaf t l1 := by
  intro l
  induction l with
  | nil =>
    intro t hf
    simp [trim_leaves] at hf
  | cons i rest ih =>
    intro t hf
    cases hp : trim_leaf t i with
    | mk t1 b =>
      unfold trim_leaves at hf ⊢
      rw [hp] at hf ⊢
      cases b with
      | false =>
        refine ⟨[], i, rest, rfl, rfl, ?_, ?_⟩
        · show (trim_leaf t i).2 = false
          rw [hp]
        · show t1 = t
          have h := trim_leaf_fail_eq
            (show (trim_leaf t i).2 = false by rw [hp])
          rw [hp] at h
          exact h
      | true =>
        dsimp only at hf ⊢
        obtain ⟨l1, w, l2, hsplit, hall, hfail, hstate⟩ := ih t1 hf
        refine ⟨i :: l1, w, l2, by rw [hsplit]; rfl, ?_, ?_, ?_⟩
        · show ((trim_leaf t i).2
              && stepsAllSucceed trim_leaf (trim_leaf t i).1 l1) = true
          rw [hp]
          simpa using hall
        · show (trim_leaf (foldSteps trim_leaf (trim_leaf t i).1 l1) w).2
              = false
          rw [hp]
          exact hfail
        · show (trim_leaves t1 rest).1
              = foldSteps trim_leaf (trim_leaf t i).1 l1
          rw [hp]
          exact hstate

theorem contract_chain_loop_fail_trace :
    ∀ (fuel : Nat) (t : TreeT) (stack : List Nat),
      (contract_chain_loop fuel t stack).2 = some false →
      ∃ vs w, stepsAllSucceed contract_chain_node t vs = true
        ∧ (contract_chain_node (foldSteps contract_chain_node t vs) w).2
            = false
        ∧ (contract_chain_loop fuel t stack).1
            = foldSteps contract_chain_node t vs := by
  intro fuel
  induction fuel with
  | zero =>
    intro t stack hf
    simp [contract_chain_loop] at hf
  | succ fuel ih =>
    intro t stack hf
    cases stack with
    | nil => simp [contract_chain_loop] at hf
    | cons u stack2 =>
      cases hp : contract_chain_node t u with
      | mk t1 b =>
        unfold contract_chain_loop at hf ⊢
        dsimp only at hf ⊢
        rw [hp] at hf ⊢
        cases b with
        | false =>
          refine ⟨[], u, rfl, ?_, ?_⟩
          · show (contract_chain_node t u).2 = false
            rw [hp]
          · show t1 = t
            have h := contract_chain_node_fail_eq
              (show (contract_chain_node t u).2 = false by rw [hp])
            rw [hp] at h
            exact h
        | true =>
          dsimp only at hf ⊢
          obtain ⟨vs, w, hall, hfail, hstate⟩ := ih t1 _ hf
          refine ⟨u :: vs, w, ?_, ?_, ?_⟩
          · show ((contract_chain_node t u).2
                && stepsAllSucceed contract_chain_node
                    (contract_chain_node t u).1 vs) = true
            rw [hp]
            simpa using hall
          · show (contract_chain_node
                (foldSteps contract_chain_node
                  (contract_chain_node t u).1 vs) w).2 = false
            rw [hp]
            exact hfail
          · show _ = foldSteps contract_chain_node
                (contract_chain_node t u).1 vs
            rw [hp]
            exact hstate

/-- C5: whenever one of the composite operations `contract_all_chains`,
`trim_leaves` or `contract_chain` returns failure, the state at return is
exactly the state produced by the successful elementary steps performed
before the first failing step (a prefix of the attempted sequence, each step
succeeding in the state the previous ones produced) — no successful step is
rolled back and no further step is attempted after the first failure. -/
theorem c5_no_rollback (t : TreeT) (v : Nat) (leaves : List Nat) :
    ((contract_all_chains t).2 = false →
      ∃ l1 w l2, List.range (node_size t) = l1 ++ w :: l2
        ∧ stepsAllSucceed contract_chain_node t l1 = true
        ∧ (contract_chain_node (foldSteps contract_chain_node t l1) w).2
            = false
        ∧ (contract_all_chains t).1 = foldSteps contract_chain_node t l1)
    ∧ ((trim_leaves t leaves).2 = false →
      ∃ l1 w l2, leaves = l1 ++ w :: l2
        ∧ stepsAllSucceed trim_leaf t l1 = true
        ∧ (trim_leaf (foldSteps trim_leaf t l1) w).2 = false
        ∧ (trim_leaves t leaves).1 = foldSteps trim_leaf t l1)
    ∧ ((contract_chain t v).2 = some false →
      ∃ vs w, stepsAllSucceed contract_chain_node t vs = true
        ∧ (contract_chain_node (foldSteps contract_chain_node t vs) w).2
            = false
        ∧ (contract_chain t v).1 = foldSteps contract_chain_node t vs) := by
  refine ⟨?_, ?_, ?_⟩
  · intro hf
    exact contract_all_chains_loop_fail_trace _ _ hf
  · intro hf
    exact trim_leaves_fail_trace _ _ hf
  · intro hf
    exact contract_chain_loop_fail_trace _ _ _ hf

/-- Witness for C5 on the two-node tree `0 - 1`: `contract_all_chains` fails
at id 0, `trim_leaves [5]` fails at the non-leaf 5, and `contract_chain 0`
fails at the degree-1 node 0. -/
theorem c5_no_rollback_witness :
    (∃ l1 w l2,
      List.range (node_size ⟨[[1], [0]], NONODE, 1⟩) = l1 ++ w :: l2
      ∧ stepsAllSucceed contract_chain_node ⟨[[1], [0]], NONODE, 1⟩ l1 = true
      ∧ (contract_chain_node
          (foldSteps contract_chain_node ⟨[[1], [0]], NONODE, 1⟩ l1) w).2
          = false
      ∧ (contract_all_chains ⟨[[1], [0]], NONODE, 1⟩).1
          = foldSteps contract_chain_node ⟨[[1], [0]], NONODE, 1⟩ l1)
    ∧ (∃ l1 w l2, [5] = l1 ++ w :: l2
      ∧ stepsAllSucceed trim_leaf ⟨[[1], [0]], NONODE, 1⟩ l1 = true
      ∧ (trim_leaf (foldSteps trim_leaf ⟨[[1], [0]], NONODE, 1⟩ l1) w).2
          = false
      ∧ (trim_leaves ⟨[[1], [0]], NONODE, 1⟩ [5]).1
          = foldSteps trim_leaf ⟨[[1], [0]], NONODE, 1⟩ l1)
    ∧ (∃ vs w,
      stepsAllSucceed contract_chain_node ⟨[[1], [0]], NONODE, 1⟩ vs = true
      ∧ (contract_chain_node
          (foldSteps contract_chain_node ⟨[[1], [0]], NONODE, 1⟩ vs) w).2
          = false
      ∧ (contract_chain ⟨[[1], [0]], NONODE, 1⟩ 0).1
          = foldSteps contract_chain_node ⟨[[1], [0]], NONODE, 1⟩ vs) := by
  have h := c5_no_rollback ⟨[[1], [0]], NONODE, 1⟩ 0 [5]
  exact ⟨h.1 (by decide), h.2.1 (by decide), h.2.2 (by decide)⟩

/-! ### Claim C7 -/

theorem dfs_states_nil {t : TreeT} {fuel : Nat} {s : DfsState}
    (h : s.stack = []) : dfs_states t fuel s = [] := by
  cases fuel with
  | zero => rfl
  | succ f =>
    unfold dfs_states
    rw [if_pos h]

theorem dfs_states_cons {t : TreeT} {fuel : Nat} {s : DfsState}
    (h : s.stack ≠ []) :
    dfs_states t (fuel+1) s = s :: dfs_states t fuel (dfs_next t s) := by
  simp only [dfs_states]
  rw [if_neg h]

theorem dfs_states_head {t : TreeT} {fuel : Nat} {s : DfsState}
    (h : dfs_states t fuel s ≠ []) : (dfs_states t fuel s)[0]? = some s := by
  cases fuel with
  | zero => exact absurd rfl h
  | succ f =>
    by_cases hs : s.stack = []
    · rw [dfs_states_nil hs] at h
      exact absurd rfl h
    · rw [dfs_states_cons hs]
      simp

theorem dfs_events_cons {t : TreeT} {fuel : Nat} {s : DfsState}
    (h : s.stack ≠ []) :
    dfs_events t (fuel+1) s
      = (s.direction, s.idx) :: dfs_events t fuel (dfs_next t s) := by
  unfold dfs_events
  rw [dfs_states_cons h]
  rfl

theorem dfs_events_getElem2 {t : TreeT} {fuel : Nat} {s : DfsState}
    {i : Nat} {s2 : DfsState} (h : (dfs_states t fuel s)[i]? = some s2) :
    (dfs_events t fuel s)[i]? = some (s2.direction, s2.idx) := by
  unfold dfs_events
  rw [List.getElem?_map, h]
  rfl

theorem dfs_states_of_events_getElem2 {t : TreeT} {fuel : Nat} {s : DfsState}
    {i : Nat} {e : Dir × Nat} (h : (dfs_events t fuel s)[i]? = some e) :
    ∃ s2, (dfs_states t fuel s)[i]? = some s2
      ∧ e = (s2.direction, s2.idx) := by
  unfold dfs_events at h
  rw [List.getElem?_map] at h
  cases hg : (dfs_states t fuel s)[i]? with
  | none =>
    rw [hg] at h
    simp at h
  | some s2 =>
    rw [hg] at h
    simp at h
    exact ⟨s2, rfl, h.symm⟩

theorem dfs_states_suffix {t : TreeT} :
    ∀ (fuel i : Nat) (s s2 : DfsState),
      (dfs_states t fuel s)[i]? = some s2 →
      dfs_states t (fuel - i) s2 = (dfs_states t fuel s).drop i := by
  intro fuel
  induction fuel with
  | zero =>
    intro i s s2 h
    simp [dfs_states] at h
  | succ fuel ih =>
    intro i s s2 h
    by_cases hs : s.stack = []
    · rw [dfs_states_nil hs] at h
      simp at h
    · rw [dfs_states_cons hs] at h ⊢
      cases i with
      | zero =>
        rw [List.getElem?_cons_zero] at h
        injection h with h
        subst h
        rw [Nat.sub_zero, List.drop_zero]
        exact dfs_states_cons hs
      | succ i =>
        rw [List.getElem?_cons_succ] at h
        have h2 := ih i (dfs_next t s) s2 h
        rw [List.drop_succ_cons]
        rw [show fuel + 1 - (i+1) = fuel - i from by omega]
        exact h2

theorem dfs_states_stack_ne {t : TreeT} {fuel i : Nat} {s s2 : DfsState}
    (h : (dfs_states t fuel s)[i]? = some s2) : s2.stack ≠ [] := by
  intro hc
  have h2 := dfs_states_suffix fuel i s s2 h
  rw [dfs_states_nil hc] at h2
  have h3 : ((dfs_states t fuel s).drop i)[0]?
      = (dfs_states t fuel s)[i + 0]? := List.getElem?_drop _ i 0
  rw [← h2] at h3
  rw [Nat.add_zero] at h3
  rw [h] at h3
  simp at h3

theorem TopAligned.idx_eq {s : DfsState} (h : TopAligned s) {w : Frame}
    {r : List Frame} (hst : s.stack = w :: r) : s.idx = w.idx := by
  rcases h with h0 | ⟨w2, r2, hst2, hidx⟩
  · rw [h0] at hst
    simp at hst
  · rw [hst2] at hst
    injection hst with h1 h2
    rw [hidx, h1]

theorem TopAligned_step (t : TreeT) (s : DfsState) (h : TopAligned s) :
    TopAligned (dfs_next t s) := by
  obtain ⟨stack, idx, lvl, parent, dir⟩ := s
  cases stack with
  | nil => exact h
  | cons w below =>
    obtain ⟨widx, wrest⟩ := w
    have hw : idx = widx := TopAligned.idx_eq h rfl
    cases dir with
    | preorder =>
      cases wrest with
      | nil => exact Or.inr ⟨⟨widx, []⟩, below, rfl, hw⟩
      | cons c cs => exact Or.inr ⟨_, _, rfl, rfl⟩
    | inorder =>
      cases wrest with
      | nil => exact Or.inr ⟨⟨widx, []⟩, below, rfl, hw⟩
      | cons c cs => exact Or.inr ⟨_, _, rfl, rfl⟩
    | postorder =>
      cases below with
      | nil => exact Or.inl rfl
      | cons w2 below2 => exact Or.inr ⟨_, _, rfl, rfl⟩
    | notraversal => exact h

theorem dfs_states_TopAligned {t : TreeT} :
    ∀ (fuel : Nat) (s : DfsState), TopAligned s →
      ∀ (i : Nat) (s2 : DfsState),
        (dfs_states t fuel s)[i]? = some s2 → TopAligned s2 := by
  intro fuel
  induction fuel with
  | zero =>
    intro s _ i s2 h
    simp [dfs_states] at h
  | succ fuel ih =>
    intro s hta i s2 h
    by_cases hs : s.stack = []
    · rw [dfs_states_nil hs] at h
      simp at h
    · rw [dfs_states_cons hs] at h
      cases i with
      | zero =>
        rw [List.getElem?_cons_zero] at h
        injection h with h
        subst h
        exact hta
      | succ i =>
        rw [List.getElem?_cons_succ] at h
        exact ih (dfs_next t s) (TopAligned_step t s hta) i s2 h

theorem dfs_next_shape (t : TreeT) (s : DfsState) (h : s.stack ≠ []) :
    stackIdxs (dfs_next t s) = stackIdxs s
    ∨ (stackIdxs (dfs_next t s) = (dfs_next t s).idx :: stackIdxs s
        ∧ (dfs_next t s).direction = Dir.preorder)
    ∨ (stackIdxs (dfs_next t s) = (stackIdxs s).tail
        ∧ s.direction = Dir.postorder) := by
  obtain ⟨stack, idx, lvl, parent, dir⟩ := s
  cases stack with
  | nil => exact absurd rfl h
  | cons w below =>
    obtain ⟨widx, wrest⟩ := w
    cases dir with
    | preorder =>
      cases wrest with
      | nil => exact Or.inl rfl
      | cons c cs => exact Or.inr (Or.inl ⟨rfl, rfl⟩)
    | inorder =>
      cases wrest with
      | nil => exact Or.inl rfl
      | cons c cs => exact Or.inr (Or.inl ⟨rfl, rfl⟩)
    | postorder =>
      cases below with
      | nil => exact Or.inr (Or.inr ⟨rfl, rfl⟩)
      | cons w2 below2 => exact Or.inr (Or.inr ⟨rfl, rfl⟩)
    | notraversal => exact Or.inl rfl

theorem dfs_next_post_pop (t : TreeT) (s : DfsState) (h : s.stack ≠ [])
    (hd : s.direction = Dir.postorder) :
    stackIdxs (dfs_next t s) = (stackIdxs s).tail := by
  obtain ⟨stack, idx, lvl, parent, dir⟩ := s
  have hd2 : dir = Dir.postorder := hd
  subst hd2
  cases stack with
  | nil => exact absurd rfl h
  | cons w below =>
    cases below with
    | nil => rfl
    | cons w2 below2 => rfl

theorem dfs_states_stack_pre_aux {t : TreeT} :
    ∀ (fuel : Nat) (s : DfsState) (i : Nat) (s2 : DfsState),
      (dfs_states t fuel s)[i]? = some s2 →
      ∀ x ∈ stackIdxs s2,
        x ∈ stackIdxs s
        ∨ ∃ j, j ≤ i ∧ ∃ s3, (dfs_states t fuel s)[j]? = some s3
            ∧ s3.direction = Dir.preorder ∧ s3.idx = x := by
  intro fuel
  induction fuel with
  | zero =>
    intro s i s2 h
    simp [dfs_states] at h
  | succ fuel ih =>
    intro s i s2 h x hx
    by_cases hs : s.stack = []
    · rw [dfs_states_nil hs] at h
      simp at h
    · rw [dfs_states_cons hs] at h ⊢
      cases i with
      | zero =>
        rw [List.getElem?_cons_zero] at h
        injection h with h
        subst h
        exact Or.inl hx
      | succ i =>
        rw [List.getElem?_cons_succ] at h
        have h2 := ih (dfs_next t s) i s2 h x hx
        cases h2 with
        | inr hj =>
          obtain ⟨j, hji, s3, hg, hdir, hidx⟩ := hj
          refine Or.inr ⟨j+1, by omega, s3, ?_, hdir, hidx⟩
          rw [List.getElem?_cons_succ]
          exact hg
        | inl hmem =>
          rcases dfs_next_shape t s hs with hstay | ⟨hpush, hpre⟩ | ⟨hpop, _⟩
          · rw [hstay] at hmem
            exact Or.inl hmem
          · rw [hpush] at hmem
            cases hmem with
            | tail _ hm => exact Or.inl hm
            | head =>
              have hne : dfs_states t fuel (dfs_next t s) ≠ [] := by
                intro hc
                rw [hc] at h
                simp at h
              refine Or.inr ⟨1, by omega, dfs_next t s, ?_, hpre, rfl⟩
              rw [List.getElem?_cons_succ]
              exact dfs_states_head hne
          · rw [hpop] at hmem
            exact Or.inl (List.mem_of_mem_tail hmem)

theorem dfs_states_stack_pre {t : TreeT} (v p fuel i : Nat) (s2 : DfsState)
    (h : (dfs_states t fuel (dfs_init t v p))[i]? = some s2) :
    ∀ x ∈ stackIdxs s2,
      ∃ j, j ≤ i ∧ ∃ s3, (dfs_states t fuel (dfs_init t v p))[j]? = some s3
        ∧ s3.direction = Dir.preorder ∧ s3.idx = x := by
  intro x hx
  rcases dfs_states_stack_pre_aux fuel (dfs_init t v p) i s2 h x hx
    with hm | hj
  · have hxv : x = v := by simpa [stackIdxs, dfs_init] using hm
    have hne : dfs_states t fuel (dfs_init t v p) ≠ [] := by
      intro hc
      rw [hc] at h
      simp at h
    refine ⟨0, Nat.zero_le _, dfs_init t v p, dfs_states_head hne, rfl, ?_⟩
    rw [hxv]
    rfl
  · exact hj

theorem count_tail_le (l : List Nat) (x : Nat) :
    l.tail.count x ≤ l.count x := by
  cases l with
  | nil => exact Nat.le_refl _
  | cons a l2 =>
    show l2.count x ≤ (a :: l2).count x
    rw [List.count_cons]
    exact Nat.le_add_right _ _

theorem dfs_states_stack_count_aux {t : TreeT} :
    ∀ (fuel : Nat) (s : DfsState) (x i : Nat) (s2 : DfsState),
      (dfs_states t fuel s)[i]? = some s2 →
      (stackIdxs s2).count x
        ≤ (stackIdxs s).count x
          + (((dfs_events t fuel s).drop 1).take i).count
              (Dir.preorder, x) := by
  intro fuel
  induction fuel with
  | zero =>
    intro s x i s2 h
    simp [dfs_states] at h
  | succ fuel ih =>
    intro s x i s2 h
    by_cases hs : s.stack = []
    · rw [dfs_states_nil hs] at h
      simp at h
    · rw [dfs_states_cons hs] at h
      rw [dfs_events_cons hs, List.drop_succ_cons, List.drop_zero]
      cases i with
      | zero =>
        rw [List.getElem?_cons_zero] at h
        injection h with h
        subst h
        simp
      | succ i =>
        rw [List.getElem?_cons_succ] at h
        have hne2 : (dfs_next t s).stack ≠ [] := by
          intro hc
          rw [dfs_states_nil hc] at h
          simp at h
        cases fuel with
        | zero => simp [dfs_states] at h
        | succ fuel2 =>
          have hih := ih (dfs_next t s) x i s2 h
          rw [dfs_events_cons hne2, List.drop_succ_cons, List.drop_zero]
            at hih
          rw [dfs_events_cons hne2, List.take_succ_cons, List.count_cons]
          rcases dfs_next_shape t s hs with hstay | ⟨hpush, hpre⟩ | ⟨hpop, _⟩
          · rw [hstay] at hih
            omega
          · rw [hpush, List.count_cons] at hih
            simp only [beq_iff_eq] at hih ⊢
            by_cases hxx : (dfs_next t s).idx = x
            · rw [if_pos hxx] at hih
              rw [if_pos (show ((dfs_next t s).direction, (dfs_next t s).idx)
                    = ((Dir.preorder, x) : Dir × Nat) by rw [hpre, hxx])]
              omega
            · rw [if_neg hxx] at hih
              rw [if_neg (show ¬((dfs_next t s).direction, (dfs_next t s).idx)
                    = ((Dir.preorder, x) : Dir × Nat) by
                  intro hc
                  injection hc with h1 h2
                  exact hxx h2)]
              omega
          · rw [hpop] at hih
            have hct := count_tail_le (stackIdxs s) x
            omega

theorem dfs_states_stack_count {t : TreeT} (v p fuel x i : Nat)
    (s2 : DfsState)
    (h : (dfs_states t fuel (dfs_init t v p))[i]? = some s2) :
    (stackIdxs s2).count x
      ≤ (dfs_events t fuel (dfs_init t v p)).count (Dir.preorder, x) := by
  have h1 := dfs_states_stack_count_aux fuel (dfs_init t v p) x i s2 h
  cases fuel with
  | zero => simp [dfs_states] at h
  | succ f =>
    have hs : (dfs_init t v p).stack ≠ [] := by simp [dfs_init]
    rw [dfs_events_cons hs, List.drop_succ_cons, List.drop_zero] at h1
    rw [dfs_events_cons hs, List.count_cons]
    have htk := (List.take_sublist i
      (dfs_events t f (dfs_next t (dfs_init t v p)))).count_le
      ((Dir.preorder, x) : Dir × Nat)
    have hev : (((dfs_init t v p).direction, (dfs_init t v p).idx)
        : Dir × Nat) = (Dir.preorder, v) := rfl
    rw [hev]
    simp only [beq_iff_eq]
    by_cases hvx : v = x
    · have hsi : (stackIdxs (dfs_init t v p)).count x = 1 := by
        show List.count x [v] = 1
        rw [hvx]
        simp
      rw [hsi] at h1
      rw [if_pos (show ((Dir.preorder, v) : Dir × Nat) = (Dir.preorder, x) by
        rw [hvx])]
      omega
    · have hsi : (stackIdxs (dfs_init t v p)).count x = 0 := by
        show List.count x [v] = 0
        simp [List.count_cons, hvx]
      rw [hsi] at h1
      rw [if_neg (show ¬((Dir.preorder, v) : Dir × Nat) = (Dir.preorder, x) by
        intro hc
        injection hc with h1x h2x
        exact hvx h2x)]
      omega

theorem eventPos_le_of_pos :
    ∀ (l : List (Dir × Nat)) (j : Nat) (e : Dir × Nat),
      l[j]? = some e → eventPos l e ≤ j := by
  intro l
  induction l with
  | nil =>
    intro j e h
    simp at h
  | cons x xs ih =>
    intro j e h
    unfold eventPos
    cases j with
    | zero =>
      rw [List.getElem?_cons_zero] at h
      injection h with h
      subst h
      rw [if_pos rfl]
    | succ j =>
      rw [List.getElem?_cons_succ] at h
      by_cases hxe : x = e
      · rw [if_pos hxe]
        omega
      · rw [if_neg hxe]
        have := ih j e h
        omega

theorem eventPos_eq_of_count_le_one :
    ∀ (l : List (Dir × Nat)) (k : Nat) (e : Dir × Nat),
      l[k]? = some e → l.count e ≤ 1 → eventPos l e = k := by
  intro l
  induction l with
  | nil =>
    intro k e h
    simp at h
  | cons x xs ih =>
    intro k e h hc
    unfold eventPos
    cases k with
    | zero =>
      rw [List.getElem?_cons_zero] at h
      injection h with h
      subst h
      rw [if_pos rfl]
    | succ k =>
      rw [List.getElem?_cons_succ] at h
      have hmem : e ∈ xs := List.getElem?_mem h
      by_cases hxe : x = e
      · exfalso
        subst hxe
        rw [List.count_cons_self] at hc
        have hpos : 0 < xs.count x := List.count_pos_iff.2 hmem
        omega
      · rw [if_neg hxe]
        rw [List.count_cons_of_ne (Ne.symm hxe)] at hc
        rw [ih k e h hc]

theorem count_two_of_two_pos :
    ∀ (l : List (Dir × Nat)) (i j : Nat) (e : Dir × Nat),
      i < j → l[i]? = some e → l[j]? = some e → 2 ≤ l.count e := by
  intro l
  induction l with
  | nil =>
    intro i j e _ h
    simp at h
  | cons x xs ih =>
    intro i j e hij hi hj
    cases i with
    | zero =>
      rw [List.getElem?_cons_zero] at hi
      injection hi with hi
      subst hi
      cases j with
      | zero => omega
      | succ j =>
        rw [List.getElem?_cons_succ] at hj
        have hmem : x ∈ xs := List.getElem?_mem hj
        rw [List.count_cons_self]
        have hpos : 0 < xs.count x := List.count_pos_iff.2 hmem
        omega
    | succ i =>
      cases j with
      | zero => omega
      | succ j =>
        rw [List.getElem?_cons_succ] at hi hj
        have h2 := ih i j e (by omega) hi hj
        rw [List.count_cons]
        exact le_trans h2 (Nat.le_add_right _ _)

theorem dfs_states_bracket {t : TreeT} {a d : Nat} :
    ∀ (fuel : Nat) (s : DfsState), TopAligned s →
      (∃ X Y, stackIdxs s = X ++ a :: Y ∧ d ∈ X) →
      ∀ (m : Nat) (sm : DfsState),
        (dfs_states t fuel s)[m]? = some sm →
        sm.direction = Dir.postorder → sm.idx = a →
        (stackIdxs sm).count a ≤ 1 →
        ∃ j, j < m ∧ ∃ sj, (dfs_states t fuel s)[j]? = some sj
          ∧ sj.direction = Dir.postorder ∧ sj.idx = d := by
  intro fuel
  induction fuel with
  | zero =>
    intro s _ _ m sm h
    simp [dfs_states] at h
  | succ fuel ih =>
    intro s hta hpat m sm h hdir hidx hcnt
    by_cases hs : s.stack = []
    · rw [dfs_states_nil hs] at h
      simp at h
    · rw [dfs_states_cons hs] at h ⊢
      obtain ⟨X, Y, hXY, hdX⟩ := hpat
      cases m with
      | zero =>
        exfalso
        rw [List.getElem?_cons_zero] at h
        injection h with h
        subst h
        cases hX : X with
        | nil =>
          rw [hX] at hdX
          simp at hdX
        | cons x0 X2 =>
          rw [hX] at hXY
          cases hst : s.stack with
          | nil => exact hs hst
          | cons w below =>
            have hw : s.idx = w.idx := TopAligned.idx_eq hta hst
            have hsi : stackIdxs s = w.idx :: List.map Frame.idx below := by
              show List.map Frame.idx s.stack = _
              rw [hst]
              rfl
            rw [hsi] at hXY
            injection hXY with h1 h2
            rw [hsi, List.count_cons, h2] at hcnt
            simp only [beq_iff_eq] at hcnt
            have hx0a : w.idx = a := by rw [← hw, hidx]
            rw [if_pos hx0a] at hcnt
            have hge : 0 < (X2 ++ a :: Y).count a :=
              List.count_pos_iff.2
                (List.mem_append_right _ (List.mem_cons_self _ _))
            have hcnt2 : List.count a (X2 ++ a :: Y) + 1 ≤ 1 := hcnt
            omega
      | succ m =>
        rw [List.getElem?_cons_succ] at h
        have hta2 : TopAligned (dfs_next t s) := TopAligned_step t s hta
        rcases dfs_next_shape t s hs with hstay | ⟨hpush, _⟩ | ⟨hpop, hpd⟩
        · obtain ⟨j, hjm, sj, hgj, hjdir, hjidx⟩ :=
            ih (dfs_next t s) hta2 ⟨X, Y, by rw [hstay, hXY], hdX⟩
              m sm h hdir hidx hcnt
          exact ⟨j+1, by omega, sj,
            by rw [List.getElem?_cons_succ]; exact hgj, hjdir, hjidx⟩
        · obtain ⟨j, hjm, sj, hgj, hjdir, hjidx⟩ :=
            ih (dfs_next t s) hta2
              ⟨(dfs_next t s).idx :: X, Y,
                by rw [hpush, hXY]; rfl, List.mem_cons_of_mem _ hdX⟩
              m sm h hdir hidx hcnt
          exact ⟨j+1, by omega, sj,
            by rw [List.getElem?_cons_succ]; exact hgj, hjdir, hjidx⟩
        · cases hX : X with
          | nil =>
            rw [hX] at hdX
            simp at hdX
          | cons x0 X2 =>
            by_cases hdX2 : d ∈ X2
            · obtain ⟨j, hjm, sj, hgj, hjdir, hjidx⟩ :=
                ih (dfs_next t s) hta2
                  ⟨X2, Y, by rw [hpop, hXY, hX]; rfl, hdX2⟩
                  m sm h hdir hidx hcnt
              exact ⟨j+1, by omega, sj,
                by rw [List.getElem?_cons_succ]; exact hgj, hjdir, hjidx⟩
            · have hdx0 : d = x0 := by
                rw [hX] at hdX
                cases hdX with
                | head => rfl
                | tail _ hm => exact absurd hm hdX2
              refine ⟨0, by omega, s, by rw [List.getElem?_cons_zero], hpd, ?_⟩
              cases hst : s.stack with
              | nil => exact absurd hst hs
              | cons w below =>
                have hw : s.idx = w.idx := TopAligned.idx_eq hta hst
                have hsi : stackIdxs s = w.idx :: List.map Frame.idx below := by
                  show List.map Frame.idx s.stack = _
                  rw [hst]
                  rfl
                rw [hXY, hX] at hsi
                injection hsi with h1 h2
                rw [hw, ← h1, hdx0]

/-- C7: for every tree, every traversal started by `dfs_init` and every pair
of nodes `a ≠ d` such that the traversal reaches `d` with an Enter (preorder)
visit while `a` lies strictly below `d` on the frame stack (`d` is a
descendant of `a` in that traversal), and whose Enter events for `a` and `d`
occur at most once in the event stream: the position of `a`'s Enter event
strictly precedes the position of `d`'s Enter event, and every Leave
(postorder) event of `a` strictly follows a Leave event of `d`. -/
theorem c7_dfs_descendant_order (t : TreeT) (v p fuel a d : Nat)
    (had : a ≠ d)
    (hca : (dfs_events t fuel (dfs_init t v p)).count (Dir.preorder, a) ≤ 1)
    (hcd : (dfs_events t fuel (dfs_init t v p)).count (Dir.preorder, d) ≤ 1)
    (hdesc : ∃ (k : Nat) (sk : DfsState),
      (dfs_states t fuel (dfs_init t v p))[k]? = some sk
      ∧ sk.direction = Dir.preorder ∧ sk.idx = d
      ∧ a ∈ (stackIdxs sk).tail) :
    eventPos (dfs_events t fuel (dfs_init t v p)) (Dir.preorder, a)
        < eventPos (dfs_events t fuel (dfs_init t v p)) (Dir.preorder, d)
    ∧ ∀ m : Nat, (dfs_events t fuel (dfs_init t v p))[m]?
          = some (Dir.postorder, a) →
        ∃ j : Nat, j < m ∧ (dfs_events t fuel (dfs_init t v p))[j]?
          = some (Dir.postorder, d) := by
  obtain ⟨k, sk, hgk, hkdir, hkidx, hka⟩ := hdesc
  have hamem : a ∈ stackIdxs sk := List.mem_of_mem_tail hka
  obtain ⟨j, hjk, s3, hgj, hjdir, hjidx⟩ :=
    dfs_states_stack_pre v p fuel k sk hgk a hamem
  have hTj : (dfs_events t fuel (dfs_init t v p))[j]?
      = some (Dir.preorder, a) := by
    have h2 := dfs_events_getElem2 hgj
    rw [hjdir, hjidx] at h2
    exact h2
  have hTk : (dfs_events t fuel (dfs_init t v p))[k]?
      = some (Dir.preorder, d) := by
    have h2 := dfs_events_getElem2 hgk
    rw [hkdir, hkidx] at h2
    exact h2
  have hjk2 : j ≠ k := by
    intro hc
    rw [hc, hTk] at hTj
    injection hTj with hTj
    injection hTj with h1 h2
    exact had h2.symm
  have hple : eventPos (dfs_events t fuel (dfs_init t v p)) (Dir.preorder, a)
      ≤ j := eventPos_le_of_pos _ j _ hTj
  have hpeq : eventPos (dfs_events t fuel (dfs_init t v p)) (Dir.preorder, d)
      = k := eventPos_eq_of_count_le_one _ k _ hTk hcd
  have hta0 : TopAligned (dfs_init t v p) := Or.inr ⟨_, _, rfl, rfl⟩
  have htak : TopAligned sk :=
    dfs_states_TopAligned fuel (dfs_init t v p) hta0 k sk hgk
  constructor
  · omega
  · intro m hTm
    obtain ⟨sm, hgm, hsme⟩ := dfs_states_of_events_getElem2 hTm
    have hmdir : sm.direction = Dir.postorder := by
      injection hsme with h1 h2
      exact h1.symm
    have hmidx : sm.idx = a := by
      injection hsme with h1 h2
      exact h2.symm
    have htam : TopAligned sm :=
      dfs_states_TopAligned fuel (dfs_init t v p) hta0 m sm hgm
    have hsmne : sm.stack ≠ [] := dfs_states_stack_ne hgm
    have hmk : m ≠ k := by
      intro hc
      rw [hc, hTk] at hTm
      injection hTm with hTm
      injection hTm with h1 h2
      exact Dir.noConfusion h1
    have hcm1 : (stackIdxs sm).count a ≤ 1 :=
      le_trans (dfs_states_stack_count v p fuel a m sm hgm) hca
    have hnotlt : ¬ m < k := by
      intro hmk2
      cases hst : sm.stack with
      | nil => exact hsmne hst
      | cons w below =>
        have hw : sm.idx = w.idx := TopAligned.idx_eq htam hst
        have hsi : stackIdxs sm = w.idx :: List.map Frame.idx below := by
          show List.map Frame.idx sm.stack = _
          rw [hst]
          rfl
        have hamem2 : a ∈ stackIdxs sm := by
          rw [hsi, ← hw, hmidx]
          exact List.mem_cons_self _ _
        obtain ⟨j1, hj1m, s4, hgj1, hj1dir, hj1idx⟩ :=
          dfs_states_stack_pre v p fuel m sm hgm a hamem2
        have hTj1 : (dfs_events t fuel (dfs_init t v p))[j1]?
            = some (Dir.preorder, a) := by
          have h2 := dfs_events_getElem2 hgj1
          rw [hj1dir, hj1idx] at h2
          exact h2
        have hsuf := dfs_states_suffix fuel m (dfs_init t v p) sm hgm
        have hrel : (dfs_states t (fuel - m) sm)[k - m]? = some sk := by
          rw [hsuf, List.getElem?_drop,
            show m + (k - m) = k from by omega]
          exact hgk
        cases hfm : fuel - m with
        | zero =>
          rw [hfm] at hrel
          simp [dfs_states] at hrel
        | succ f2 =>
          rw [hfm] at hrel
          rw [dfs_states_cons hsmne] at hrel
          cases hkm : k - m with
          | zero => omega
          | succ km2 =>
            rw [hkm, List.getElem?_cons_succ] at hrel
            have hcnt2 := dfs_states_stack_count_aux f2 (dfs_next t sm)
              a km2 sk hrel
            have hpop := dfs_next_post_pop t sm hsmne hmdir
            have hz : (stackIdxs (dfs_next t sm)).count a = 0 := by
              rw [hpop, hsi]
              show (List.map Frame.idx below).count a = 0
              rw [hsi, List.count_cons] at hcm1
              simp only [beq_iff_eq] at hcm1
              rw [if_pos (show w.idx = a by rw [← hw, hmidx])] at hcm1
              omega
            rw [hz] at hcnt2
            have hge1 : 0 < (stackIdxs sk).count a :=
              List.count_pos_iff.2 hamem
            have hwin : ((Dir.preorder, a) : Dir × Nat)
                ∈ dfs_events t f2 (dfs_next t sm) := by
              have hpos : 0 < (((dfs_events t f2 (dfs_next t sm)).drop 1).take
                  km2).count ((Dir.preorder, a) : Dir × Nat) := by omega
              have hm1 := List.count_pos_iff.1 hpos
              exact List.mem_of_mem_drop (List.mem_of_mem_take hm1)
            obtain ⟨q, hq⟩ := List.getElem?_of_mem hwin
            have hdropm : dfs_states t f2 (dfs_next t sm)
                = (dfs_states t fuel (dfs_init t v p)).drop (m + 1) := by
              have h7 : dfs_states t (f2+1) sm
                  = (dfs_states t fuel (dfs_init t v p)).drop m := by
                rw [← hfm]
                exact hsuf
              rw [dfs_states_cons hsmne] at h7
              have h8 := congrArg List.tail h7
              simp only [List.tail_cons] at h8
              rw [h8, ← List.drop_drop, List.drop_one]
            have habs2 : (dfs_events t fuel
                (dfs_init t v p))[(m + 1) + q]?
                = some (Dir.preorder, a) := by
              have h9 : dfs_events t f2 (dfs_next t sm)
                  = (dfs_events t fuel (dfs_init t v p)).drop (m + 1) := by
                unfold dfs_events
                rw [hdropm, List.map_drop]
              rw [h9, List.getElem?_drop] at hq
              exact hq
            have htwo := count_two_of_two_pos
              (dfs_events t fuel (dfs_init t v p)) j1 ((m + 1) + q)
              (Dir.preorder, a) (by omega) hTj1 habs2
            omega
    have hmk3 : k < m := by omega
    cases hstk : sk.stack with
    | nil => exact absurd hstk (dfs_states_stack_ne hgk)
    | cons wk belowk =>
      have hwk : sk.idx = wk.idx := TopAligned.idx_eq htak hstk
      have hsik : stackIdxs sk = wk.idx :: List.map Frame.idx belowk := by
        show List.map Frame.idx sk.stack = _
        rw [hstk]
        rfl
      have hka2 : a ∈ List.map Frame.idx belowk := by
        have h10 := hka
        rw [hsik] at h10
        exact h10
      obtain ⟨A, Y, hAY⟩ := List.append_of_mem hka2
      have hpat : ∃ X Y2, stackIdxs sk = X ++ a :: Y2 ∧ d ∈ X := by
        refine ⟨wk.idx :: A, Y, ?_, ?_⟩
        · rw [hsik, hAY]
          rfl
        · have h11 : wk.idx = d := by rw [← hwk, hkidx]
          rw [h11]
          exact List.mem_cons_self _ _
      have hsufk := dfs_states_suffix fuel k (dfs_init t v p) sk hgk
      have hrelm : (dfs_states t (fuel - k) sk)[m - k]? = some sm := by
        rw [hsufk, List.getElem?_drop,
          show k + (m - k) = m from by omega]
        exact hgm
      obtain ⟨j2, hj2, sj, hgj2, hjdir2, hjidx2⟩ :=
        dfs_states_bracket (fuel - k) sk htak hpat (m - k) sm hrelm
          hmdir hmidx hcm1
      have habs : (dfs_states t fuel (dfs_init t v p))[k + j2]?
          = some sj := by
        have h5 : ((dfs_states t fuel (dfs_init t v p)).drop k)[j2]?
            = some sj := by
          rw [← hsufk]
          exact hgj2
        rw [List.getElem?_drop] at h5
        exact h5
      refine ⟨k + j2, by omega, ?_⟩
      have h6 := dfs_events_getElem2 habs
      rw [hjdir2, hjidx2] at h6
      exact h6

/-- Witness for C7 on the star with center 0 and leaves 1, 2, 3, traversed
from node 0: node 2 is visited with 0 below it on the stack (state 5 of the
traversal), the Enter event of 0 precedes the Enter event of 2, and the
Leave event of 0 (position 12) is preceded by the Leave event of 2. -/
theorem c7_dfs_descendant_order_witness :
    ((0 : Nat) ≠ 2
      ∧ (dfs_events ⟨[[1, 2, 3], [0], [0], [0]], NONODE, 3⟩ 20
          (dfs_init ⟨[[1, 2, 3], [0], [0], [0]], NONODE, 3⟩ 0 NONODE)).count
          (Dir.preorder, 0) ≤ 1
      ∧ (dfs_events ⟨[[1, 2, 3], [0], [0], [0]], NONODE, 3⟩ 20
          (dfs_init ⟨[[1, 2, 3], [0], [0], [0]], NONODE, 3⟩ 0 NONODE)).count
          (Dir.preorder, 2) ≤ 1)
    ∧ eventPos (dfs_events ⟨[[1, 2, 3], [0], [0], [0]], NONODE, 3⟩ 20
          (dfs_init ⟨[[1, 2, 3], [0], [0], [0]], NONODE, 3⟩ 0 NONODE))
          (Dir.preorder, 0)
        < eventPos (dfs_events ⟨[[1, 2, 3], [0], [0], [0]], NONODE, 3⟩ 20
          (dfs_init ⟨[[1, 2, 3], [0], [0], [0]], NONODE, 3⟩ 0 NONODE))
          (Dir.preorder, 2)
    ∧ ∃ j : Nat, j < 12
        ∧ (dfs_events ⟨[[1, 2, 3], [0], [0], [0]], NONODE, 3⟩ 20
            (dfs_init ⟨[[1, 2, 3], [0], [0], [0]], NONODE, 3⟩ 0 NONODE))[j]?
          = some (Dir.postorder, 2) := by
  have h := c7_dfs_descendant_order ⟨[[1, 2, 3], [0], [0], [0]], NONODE, 3⟩
    0 NONODE 20 0 2 (by decide) (by decide) (by decide)
    ⟨5, ⟨[⟨2, []⟩, ⟨0, [2, 3]⟩], 2, 1, 0, Dir.preorder⟩,
      by decide, rfl, rfl, by decide⟩
  exact ⟨⟨by decide, by decide, by decide⟩, h.1, h.2 12 (by decide)⟩

end Gator
